import Mathlib

/-!
Verification of the provider-matching / template-resolution core of the
`open-in-browser` VS Code extension (shallow embedding of
`src/templateEngine.ts`, `src/dynamicUrlBuilder.ts`, `src/ticketUrlBuilder.ts`,
`src/ticketProviderLoader.ts` and `src/browserConfigLoader.ts`).

JavaScript objects used as flat template contexts are modelled as ordered
association lists with JavaScript property semantics (assignment to an
existing key updates it in place, a fresh key is appended); `undefined` is
modelled by absence, `null` by an explicit value.  Regular-expression
matching, which the code delegates to the JavaScript `RegExp` engine over
configuration-supplied pattern strings, is modelled by an explicit match
function passed as an argument: `.error` models a `new RegExp` constructor
throw, `.ok none` a failed match, `.ok (some m)` a match array (`none`
entries model `undefined` capture groups).
-/

namespace OIB

/-- A defined JavaScript value stored in a template context: a string, an
integral number, or `null`.  `undefined` is modelled by absence from the
context object. -/
inductive JsValue where
  | vstr (s : String)
  | vnum (n : Int)
  | vnull
deriving DecidableEq, Repr

/-- Property read on a JavaScript object modelled as an ordered association
list.  `none` models `undefined` (key absent). -/
def objGet {β : Type} : List (String × β) → String → Option β
  | [], _ => none
  | p :: o, k => if p.1 = k then some p.2 else objGet o k

/-- Property write on a JavaScript object: assignment to an existing key
updates the entry in place (keeping its position), a fresh key is appended. -/
def objSet {β : Type} (o : List (String × β)) (k : String) (v : β) : List (String × β) :=
  if o.any (fun p => p.1 == k) then
    o.map (fun p => if p.1 = k then (k, v) else p)
  else o ++ [(k, v)]

/-- `m[i]` on a regex match array: `none` models `undefined`
(index out of range, or a capture group that did not participate). -/
def matchGet (m : List (Option String)) (i : Nat) : Option String :=
  (m.get? i).join

/-- Outcome of `new RegExp(pattern)` followed by `str.match(regex)`, the two
operations the builders delegate to the JavaScript engine: `.error` models a
constructor throw on a malformed pattern, `.ok none` no match, `.ok (some m)`
a match array (index 0 the whole match, then the capture groups). -/
abbrev RegexMatchFn := String → String → Except Unit (Option (List (Option String)))

/-! ## Template substitution engine (`src/templateEngine.ts`)

`processTemplate` replaces every occurrence of the pattern
`\$\{([^}]+)\}` (applied globally, leftmost first) by the context value,
the empty string when the value is `undefined` or `null`.  The scan is
implemented on character lists with explicit fuel (at least the input
length), so that it is structurally recursive and computes by `decide`. -/

/-- What `String(value)` contributes for one placeholder: the empty string
for a missing (`undefined`) or `null` value, otherwise the string form of
the value (numbers in plain decimal). -/
def renderValue : Option JsValue → List Char
  | none => []
  | some JsValue.vnull => []
  | some (JsValue.vstr s) => s.data
  | some (JsValue.vnum n) => (toString n).data

/-- Split a character list at its first closing brace: the characters before
it (what `[^}]+` can consume) and the characters after it; `none` when there
is no closing brace at all. -/
def splitBrace : List Char → Option (List Char × List Char)
  | [] => none
  | c :: rest =>
    if c = '}' then some ([], rest)
    else (splitBrace rest).map (fun p => (c :: p.1, p.2))

theorem splitBrace_append (name rest : List Char) (h : '}' ∉ name) :
    splitBrace (name ++ '}' :: rest) = some (name, rest) := by
  induction name with
  | nil => simp [splitBrace]
  | cons c cs ih =>
    have hc : c ≠ '}' := fun hc => h (by simp [hc])
    have hcs : '}' ∉ cs := fun hm => h (List.mem_cons_of_mem _ hm)
    simp [splitBrace, hc, ih hcs]

theorem splitBrace_eq_some : ∀ {l name rest : List Char},
    splitBrace l = some (name, rest) → l = name ++ '}' :: rest ∧ '}' ∉ name := by
  intro l
  induction l with
  | nil => intro name rest h; simp [splitBrace] at h
  | cons c cs ih =>
    intro name rest h
    by_cases hc : c = '}'
    · subst hc
      have h' : some (([] : List Char), cs) = some (name, rest) := by
        rw [← h]; simp [splitBrace]
      injection h' with h''
      injection h'' with ha hb
      subst ha; subst hb
      exact ⟨rfl, by simp⟩
    · simp only [splitBrace, if_neg hc] at h
      cases hs : splitBrace cs with
      | none => rw [hs] at h; simp at h
      | some p =>
        obtain ⟨a, b⟩ := p
        rw [hs] at h
        simp only [Option.map_some'] at h
        injection h with h'
        injection h' with ha hb
        subst ha; subst hb
        obtain ⟨hl, hnm⟩ := ih hs
        refine ⟨by simp [hl], ?_⟩
        intro hmem
        rcases List.mem_cons.mp hmem with h1' | h2'
        · exact hc h1'.symm
        · exact hnm h2'

theorem splitBrace_length {l name rest : List Char}
    (h : splitBrace l = some (name, rest)) : rest.length < l.length := by
  obtain ⟨hl, _⟩ := splitBrace_eq_some h
  subst hl
  simp
  omega

/-- Fuel-indexed scan of `processTemplate`: finds each occurrence of
`\$\{([^}]+)\}` exactly as the global regex does (a match needs a `$`,
an immediately following `{`, one-or-more non-`}` characters and a closing
`}`; at a position with no match the character is emitted and the scan
advances one position). -/
def ptAux (ctx : List (String × JsValue)) : Nat → List Char → List Char
  | 0, l => l
  | _ + 1, [] => []
  | fuel + 1, c :: rest =>
    if c ≠ '$' then c :: ptAux ctx fuel rest
    else if rest.head? ≠ some '{' then '$' :: ptAux ctx fuel rest
    else
      match splitBrace rest.tail with
      | some (name, rest3) =>
        if name = [] then '$' :: ptAux ctx fuel rest
        else renderValue (objGet ctx (String.mk name)) ++ ptAux ctx fuel rest3
      | none => '$' :: ptAux ctx fuel rest

/-- `processTemplate` on character lists (fuel instantiated with the length,
which the fuel lemma below shows is enough). -/
def processTemplateChars (ctx : List (String × JsValue)) (l : List Char) : List Char :=
  ptAux ctx l.length l

/-- `processTemplate(template, context)` from `src/templateEngine.ts`:
`template.replace(/\$\{([^}]+)\}/g, ...)` with missing / `null` context
values replaced by the empty string. -/
def processTemplate (template : String) (context : List (String × JsValue)) : String :=
  String.mk (processTemplateChars context template.data)

theorem ptAux_fuel (ctx : List (String × JsValue)) :
    ∀ f1 f2 l, l.length ≤ f1 → l.length ≤ f2 → ptAux ctx f1 l = ptAux ctx f2 l := by
  intro f1
  induction f1 with
  | zero =>
    intro f2 l h1 _
    have hl : l = [] := List.length_eq_zero.mp (Nat.le_zero.mp h1)
    subst hl
    cases f2 <;> rfl
  | succ f ih =>
    intro f2 l h1 h2
    cases l with
    | nil => cases f2 <;> rfl
    | cons c rest =>
      cases f2 with
      | zero => simp at h2
      | succ f2' =>
        have hrest1 : rest.length ≤ f := by simp at h1; omega
        have hrest2 : rest.length ≤ f2' := by simp at h2; omega
        simp only [ptAux]
        by_cases hc : c ≠ '$'
        · simp only [if_pos hc, ih f2' rest hrest1 hrest2]
        · simp only [if_neg hc]
          by_cases hh : rest.head? ≠ some '{'
          · simp only [if_pos hh, ih f2' rest hrest1 hrest2]
          · simp only [if_neg hh]
            cases hs : splitBrace rest.tail with
            | none => simp only [ih f2' rest hrest1 hrest2]
            | some p =>
              obtain ⟨name, rest3⟩ := p
              have h3 : rest3.length < rest.tail.length := splitBrace_length hs
              have htl : rest.tail.length ≤ rest.length := by
                cases rest <;> simp
              have h31 : rest3.length ≤ f := by omega
              have h32 : rest3.length ≤ f2' := by omega
              by_cases hn : name = []
              · simp only [if_pos hn, ih f2' rest hrest1 hrest2]
              · simp only [if_neg hn, ih f2' rest3 h31 h32]

theorem ptAux_eq (ctx : List (String × JsValue)) {fuel : Nat} {l : List Char}
    (h : l.length ≤ fuel) : ptAux ctx fuel l = processTemplateChars ctx l :=
  ptAux_fuel ctx fuel l.length l h (Nat.le_refl _)

theorem ptAux_cons (ctx : List (String × JsValue)) (fuel : Nat) (c : Char) (rest : List Char) :
    ptAux ctx (fuel + 1) (c :: rest) =
      (if c ≠ '$' then c :: ptAux ctx fuel rest
       else if rest.head? ≠ some '{' then '$' :: ptAux ctx fuel rest
       else
         match splitBrace rest.tail with
         | some (name, rest3) =>
           if name = [] then '$' :: ptAux ctx fuel rest
           else renderValue (objGet ctx (String.mk name)) ++ ptAux ctx fuel rest3
         | none => '$' :: ptAux ctx fuel rest) := rfl

theorem process_nil (ctx : List (String × JsValue)) :
    processTemplateChars ctx [] = [] := rfl

theorem process_cons_ne (ctx : List (String × JsValue)) {c : Char} (l : List Char)
    (h : c ≠ '$') : processTemplateChars ctx (c :: l) = c :: processTemplateChars ctx l := by
  show ptAux ctx (l.length + 1) (c :: l) = _
  rw [ptAux_cons, if_pos h, ptAux_eq ctx (Nat.le_refl _)]

theorem process_dollar_stuck (ctx : List (String × JsValue)) (l : List Char)
    (h : l.head? ≠ some '{') :
    processTemplateChars ctx ('$' :: l) = '$' :: processTemplateChars ctx l := by
  show ptAux ctx (l.length + 1) ('$' :: l) = _
  rw [ptAux_cons, if_neg (by simp : ¬ ('$' ≠ '$')), if_pos h,
    ptAux_eq ctx (Nat.le_refl _)]

theorem process_placeholder (ctx : List (String × JsValue)) (name rest : List Char)
    (hname : name ≠ []) (hnb : '}' ∉ name) :
    processTemplateChars ctx ('$' :: '{' :: (name ++ '}' :: rest)) =
      renderValue (objGet ctx (String.mk name)) ++ processTemplateChars ctx rest := by
  show ptAux ctx ((name ++ '}' :: rest).length + 2) _ = _
  rw [ptAux_cons, if_neg (by simp : ¬ ('$' ≠ '$')),
    if_neg (by simp : ¬ (('{' :: (name ++ '}' :: rest)).head? ≠ some '{'))]
  simp only [List.tail_cons, splitBrace_append name rest hnb, if_neg hname]
  rw [ptAux_eq ctx (by simp; omega)]

theorem process_dollar_open (ctx : List (String × JsValue)) (rest2 : List Char)
    (h : (∃ r, splitBrace rest2 = some ([], r)) ∨ splitBrace rest2 = none) :
    processTemplateChars ctx ('$' :: '{' :: rest2) =
      '$' :: processTemplateChars ctx ('{' :: rest2) := by
  show ptAux ctx (rest2.length + 2) _ = _
  rw [ptAux_cons, if_neg (by simp : ¬ ('$' ≠ '$')),
    if_neg (by simp : ¬ (('{' :: rest2).head? ≠ some '{'))]
  rcases h with ⟨r, h⟩ | h <;>
    simp [List.tail_cons, h,
      ptAux_eq ctx (show ('{' :: rest2).length ≤ rest2.length + 1 by simp)]

/-! ### `extractVariables` (`src/templateEngine.ts`)

The `while ((match = regex.exec(template)))` loop collecting the names of the
successive `\$\{([^}]+)\}` matches; the same scan as `processTemplate`. -/

/-- Fuel-indexed scan collecting, in order, the names of the placeholder
occurrences found by the global regex. -/
def evAux : Nat → List Char → List (List Char)
  | 0, _ => []
  | _ + 1, [] => []
  | fuel + 1, c :: rest =>
    if c ≠ '$' then evAux fuel rest
    else if rest.head? ≠ some '{' then evAux fuel rest
    else
      match splitBrace rest.tail with
      | some (name, rest3) =>
        if name = [] then evAux fuel rest else name :: evAux fuel rest3
      | none => evAux fuel rest

def extractVariablesChars (l : List Char) : List (List Char) := evAux l.length l

/-- `extractVariables(template)` from `src/templateEngine.ts`. -/
def extractVariables (template : String) : List String :=
  (extractVariablesChars template.data).map String.mk

theorem evAux_fuel :
    ∀ f1 f2 l, l.length ≤ f1 → l.length ≤ f2 → evAux f1 l = evAux f2 l := by
  intro f1
  induction f1 with
  | zero =>
    intro f2 l h1 _
    have hl : l = [] := List.length_eq_zero.mp (Nat.le_zero.mp h1)
    subst hl
    cases f2 <;> rfl
  | succ f ih =>
    intro f2 l h1 h2
    cases l with
    | nil => cases f2 <;> rfl
    | cons c rest =>
      cases f2 with
      | zero => simp at h2
      | succ f2' =>
        have hrest1 : rest.length ≤ f := by simp at h1; omega
        have hrest2 : rest.length ≤ f2' := by simp at h2; omega
        simp only [evAux]
        by_cases hc : c ≠ '$'
        · simp only [if_pos hc, ih f2' rest hrest1 hrest2]
        · simp only [if_neg hc]
          by_cases hh : rest.head? ≠ some '{'
          · simp only [if_pos hh, ih f2' rest hrest1 hrest2]
          · simp only [if_neg hh]
            cases hs : splitBrace rest.tail with
            | none => simp only [ih f2' rest hrest1 hrest2]
            | some p =>
              obtain ⟨name, rest3⟩ := p
              have h3 : rest3.length < rest.tail.length := splitBrace_length hs
              have htl : rest.tail.length ≤ rest.length := by
                cases rest <;> simp
              by_cases hn : name = []
              · simp only [if_pos hn, ih f2' rest hrest1 hrest2]
              · simp only [if_neg hn, ih f2' rest3 (by omega) (by omega)]

theorem evAux_eq {fuel : Nat} {l : List Char}
    (h : l.length ≤ fuel) : evAux fuel l = extractVariablesChars l :=
  evAux_fuel fuel l.length l h (Nat.le_refl _)

theorem evAux_cons (fuel : Nat) (c : Char) (rest : List Char) :
    evAux (fuel + 1) (c :: rest) =
      (if c ≠ '$' then evAux fuel rest
       else if rest.head? ≠ some '{' then evAux fuel rest
       else
         match splitBrace rest.tail with
         | some (name, rest3) =>
           if name = [] then evAux fuel rest else name :: evAux fuel rest3
         | none => evAux fuel rest) := rfl

theorem ev_cons_ne {c : Char} (l : List Char) (h : c ≠ '$') :
    extractVariablesChars (c :: l) = extractVariablesChars l := by
  show evAux (l.length + 1) (c :: l) = _
  rw [evAux_cons, if_pos h, evAux_eq (Nat.le_refl _)]

theorem ev_dollar_stuck (l : List Char) (h : l.head? ≠ some '{') :
    extractVariablesChars ('$' :: l) = extractVariablesChars l := by
  show evAux (l.length + 1) ('$' :: l) = _
  rw [evAux_cons, if_neg (by simp : ¬ ('$' ≠ '$')), if_pos h, evAux_eq (Nat.le_refl _)]

theorem ev_placeholder (name rest : List Char) (hname : name ≠ []) (hnb : '}' ∉ name) :
    extractVariablesChars ('$' :: '{' :: (name ++ '}' :: rest)) =
      name :: extractVariablesChars rest := by
  show evAux ((name ++ '}' :: rest).length + 2) _ = _
  rw [evAux_cons, if_neg (by simp : ¬ ('$' ≠ '$')),
    if_neg (by simp : ¬ (('{' :: (name ++ '}' :: rest)).head? ≠ some '{'))]
  simp only [List.tail_cons, splitBrace_append name rest hnb, if_neg hname]
  rw [evAux_eq (by simp; omega)]

theorem ev_dollar_open (rest2 : List Char)
    (h : (∃ r, splitBrace rest2 = some ([], r)) ∨ splitBrace rest2 = none) :
    extractVariablesChars ('$' :: '{' :: rest2) = extractVariablesChars ('{' :: rest2) := by
  show evAux (rest2.length + 2) _ = _
  rw [evAux_cons, if_neg (by simp : ¬ ('$' ≠ '$')),
    if_neg (by simp : ¬ (('{' :: rest2).head? ≠ some '{'))]
  rcases h with ⟨r, h⟩ | h <;>
    simp [List.tail_cons, h,
      evAux_eq (show ('{' :: rest2).length ≤ rest2.length + 1 by simp)]

/-! ### Literal text and the two scanning lemmas -/

/-- A character list containing no adjacent pair `${` (so no placeholder can
start inside it, nor across its left boundary). -/
def hasDollarBrace : List Char → Bool
  | [] => false
  | [_] => false
  | a :: b :: rest => (a == '$' && b == '{') || hasDollarBrace (b :: rest)

theorem hasDollarBrace_cons_cons {a b : Char} {rest : List Char}
    (h : hasDollarBrace (a :: b :: rest) = false) :
    ¬ (a = '$' ∧ b = '{') ∧ hasDollarBrace (b :: rest) = false := by
  have h' := h
  simp only [hasDollarBrace, Bool.or_eq_false_iff, Bool.and_eq_false_iff] at h'
  obtain ⟨h1, h2⟩ := h'
  refine ⟨?_, h2⟩
  rintro ⟨ha, hb⟩
  rcases h1 with h1 | h1 <;> simp [ha, hb] at h1

/-- Literal text scans through unchanged: prepending a chunk with no `${`
pair (and not ending in a `$` directly followed by a `{` in the
continuation) distributes over the scan. -/
theorem process_append_clean (ctx : List (String × JsValue)) (ys : List Char) :
    ∀ lit : List Char, hasDollarBrace lit = false →
    (lit.getLast? = some '$' → ys.head? ≠ some '{') →
    processTemplateChars ctx (lit ++ ys) = lit ++ processTemplateChars ctx ys := by
  intro lit
  induction lit with
  | nil => intro _ _; rfl
  | cons c lit' ih =>
    intro hDB hLast
    by_cases hc : c = '$'
    · subst hc
      cases lit' with
      | nil =>
        have hy : ys.head? ≠ some '{' := hLast rfl
        simpa using process_dollar_stuck ctx ys hy
      | cons d lit'' =>
        obtain ⟨hnd, hDB'⟩ := hasDollarBrace_cons_cons hDB
        have hd : d ≠ '{' := fun hd => hnd ⟨rfl, hd⟩
        have hstep : processTemplateChars ctx ('$' :: (d :: lit'' ++ ys)) =
            '$' :: processTemplateChars ctx (d :: lit'' ++ ys) :=
          process_dollar_stuck ctx _ (by simpa using hd)
        have hLast' : (d :: lit'').getLast? = some '$' → ys.head? ≠ some '{' := by
          intro hg
          exact hLast (by rw [List.getLast?_cons_cons]; exact hg)
        calc processTemplateChars ctx ('$' :: d :: lit'' ++ ys)
            = '$' :: processTemplateChars ctx (d :: lit'' ++ ys) := hstep
          _ = '$' :: (d :: lit'' ++ processTemplateChars ctx ys) := by rw [ih hDB' hLast']
          _ = ('$' :: d :: lit'') ++ processTemplateChars ctx ys := by simp
    · have hDB' : hasDollarBrace lit' = false := by
        cases lit' with
        | nil => rfl
        | cons d lit'' => exact (hasDollarBrace_cons_cons hDB).2
      have hLast' : lit'.getLast? = some '$' → ys.head? ≠ some '{' := by
        intro hg
        cases lit' with
        | nil => simp at hg
        | cons d lit'' => exact hLast (by rw [List.getLast?_cons_cons]; exact hg)
      have hstep := process_cons_ne ctx (lit' ++ ys) hc
      simpa using hstep.trans (by rw [ih hDB' hLast'])

/-- The scan only reads the context at the names it extracts: two contexts
agreeing on every extracted variable give the same substitution result. -/
theorem processTemplateChars_congr (c1 c2 : List (String × JsValue)) :
    ∀ (n : Nat) (l : List Char), l.length ≤ n →
    (∀ nm ∈ extractVariablesChars l, objGet c1 (String.mk nm) = objGet c2 (String.mk nm)) →
    processTemplateChars c1 l = processTemplateChars c2 l := by
  intro n
  induction n with
  | zero =>
    intro l h1 _
    have hl : l = [] := List.length_eq_zero.mp (Nat.le_zero.mp h1)
    subst hl; rfl
  | succ n ih =>
    intro l hlen hvars
    cases l with
    | nil => rfl
    | cons c rest =>
      have hrlen : rest.length ≤ n := by simp at hlen; omega
      by_cases hc : c = '$'
      · subst hc
        by_cases hhb : rest.head? = some '{'
        · cases rest with
          | nil => simp at hhb
          | cons r0 rest2 =>
            have hr0 : r0 = '{' := by simpa using hhb
            subst hr0
            cases hs : splitBrace rest2 with
            | none =>
              rw [process_dollar_open c1 rest2 (Or.inr hs),
                process_dollar_open c2 rest2 (Or.inr hs)]
              congr 1
              exact ih ('{' :: rest2) (by simpa using hrlen) (by
                intro nm hnm
                exact hvars nm (by rwa [ev_dollar_open rest2 (Or.inr hs)]))
            | some p =>
              obtain ⟨name, rest3⟩ := p
              by_cases hn : name = []
              · subst hn
                rw [process_dollar_open c1 rest2 (Or.inl ⟨rest3, hs⟩),
                  process_dollar_open c2 rest2 (Or.inl ⟨rest3, hs⟩)]
                congr 1
                exact ih ('{' :: rest2) (by simpa using hrlen) (by
                  intro nm hnm
                  exact hvars nm (by rwa [ev_dollar_open rest2 (Or.inl ⟨rest3, hs⟩)]))
              · obtain ⟨hr2, hnb⟩ := splitBrace_eq_some hs
                subst hr2
                rw [process_placeholder c1 name rest3 hn hnb,
                  process_placeholder c2 name rest3 hn hnb]
                have hev := ev_placeholder name rest3 hn hnb
                have hhead : objGet c1 (String.mk name) = objGet c2 (String.mk name) :=
                  hvars name (by rw [hev]; exact List.mem_cons_self _ _)
                rw [hhead]
                congr 1
                refine ih rest3 ?_ ?_
                · simp at hlen; omega
                · intro nm hnm
                  exact hvars nm (by rw [hev]; exact List.mem_cons_of_mem _ hnm)
        · rw [process_dollar_stuck c1 rest hhb, process_dollar_stuck c2 rest hhb]
          congr 1
          exact ih rest hrlen (by
            intro nm hnm
            exact hvars nm (by rwa [ev_dollar_stuck rest hhb]))
      · rw [process_cons_ne c1 rest hc, process_cons_ne c2 rest hc]
        congr 1
        exact ih rest hrlen (by
          intro nm hnm
          exact hvars nm (by rwa [ev_cons_ne rest hc]))

/-- A template from which the scan extracts no variables is returned
verbatim. -/
theorem process_of_no_vars (ctx : List (String × JsValue)) :
    ∀ (n : Nat) (l : List Char), l.length ≤ n →
    extractVariablesChars l = [] → processTemplateChars ctx l = l := by
  intro n
  induction n with
  | zero =>
    intro l h1 _
    have hl : l = [] := List.length_eq_zero.mp (Nat.le_zero.mp h1)
    subst hl; rfl
  | succ n ih =>
    intro l hlen hvars
    cases l with
    | nil => rfl
    | cons c rest =>
      have hrlen : rest.length ≤ n := by simp at hlen; omega
      by_cases hc : c = '$'
      · subst hc
        by_cases hhb : rest.head? = some '{'
        · cases rest with
          | nil => simp at hhb
          | cons r0 rest2 =>
            have hr0 : r0 = '{' := by simpa using hhb
            subst hr0
            cases hs : splitBrace rest2 with
            | none =>
              rw [process_dollar_open ctx rest2 (Or.inr hs)]
              rw [ev_dollar_open rest2 (Or.inr hs)] at hvars
              rw [ih ('{' :: rest2) (by simpa using hrlen) hvars]
            | some p =>
              obtain ⟨name, rest3⟩ := p
              by_cases hn : name = []
              · subst hn
                rw [process_dollar_open ctx rest2 (Or.inl ⟨rest3, hs⟩)]
                rw [ev_dollar_open rest2 (Or.inl ⟨rest3, hs⟩)] at hvars
                rw [ih ('{' :: rest2) (by simpa using hrlen) hvars]
              · obtain ⟨hr2, hnb⟩ := splitBrace_eq_some hs
                subst hr2
                rw [ev_placeholder name rest3 hn hnb] at hvars
                simp at hvars
        · rw [process_dollar_stuck ctx rest hhb]
          rw [ev_dollar_stuck rest hhb] at hvars
          rw [ih rest hrlen hvars]
      · rw [process_cons_ne ctx rest hc]
        rw [ev_cons_ne rest hc] at hvars
        rw [ih rest hrlen hvars]

/-! ## Object lemmas -/

theorem objGet_nil {β : Type} (k : String) : objGet ([] : List (String × β)) k = none := rfl

theorem objGet_cons {β : Type} (p : String × β) (o : List (String × β)) (k : String) :
    objGet (p :: o) k = if p.1 = k then some p.2 else objGet o k := rfl

theorem objGet_append {β : Type} (o1 o2 : List (String × β)) (k : String) :
    objGet (o1 ++ o2) k =
      match objGet o1 k with
      | some v => some v
      | none => objGet o2 k := by
  induction o1 with
  | nil => rfl
  | cons p o' ih =>
    rw [List.cons_append, objGet_cons, objGet_cons]
    by_cases h : p.1 = k <;> simp [h, ih]

theorem objGet_map_set {β : Type} (k k' : String) (v : β) :
    ∀ o : List (String × β),
    objGet (o.map (fun p => if p.1 = k then (k, v) else p)) k' =
      if k' = k then (if o.any (fun p => p.1 == k) then some v else none)
      else objGet o k' := by
  intro o
  induction o with
  | nil => by_cases hk : k' = k <;> simp [objGet_nil, hk]
  | cons p o'' ih =>
    rw [List.map_cons, objGet_cons]
    by_cases hp : p.1 = k
    · rw [if_pos hp]
      by_cases hk : k = k'
      · subst hk
        simp [List.any_cons, hp]
      · have hk2 : ¬ k' = k := fun h => hk h.symm
        rw [if_neg hk, ih, if_neg hk2, if_neg hk2, objGet_cons,
          if_neg (show ¬ p.1 = k' by rw [hp]; exact hk)]
    · rw [if_neg hp]
      by_cases hpk : p.1 = k'
      · rw [if_pos hpk]
        have hk : ¬ k' = k := fun h => hp (hpk.trans h)
        rw [if_neg hk, objGet_cons, if_pos hpk]
      · rw [if_neg hpk, ih, objGet_cons, if_neg hpk]
        by_cases hk : k' = k
        · rw [if_pos hk, if_pos hk, List.any_cons,
            show (p.1 == k) = false by simpa using hp, Bool.false_or]
        · rw [if_neg hk, if_neg hk]

theorem objGet_none_of_any_false {β : Type} :
    ∀ (o : List (String × β)) (k : String),
    o.any (fun p => p.1 == k) = false → objGet o k = none := by
  intro o k
  induction o with
  | nil => intro _; rfl
  | cons p o' ih =>
    intro h
    rw [List.any_cons, Bool.or_eq_false_iff] at h
    rw [objGet_cons, if_neg (by simpa using h.1)]
    exact ih h.2

theorem objGet_objSet {β : Type} (o : List (String × β)) (k k' : String) (v : β) :
    objGet (objSet o k v) k' = if k' = k then some v else objGet o k' := by
  unfold objSet
  by_cases hany : o.any (fun p => p.1 == k)
  · rw [if_pos hany, objGet_map_set]
    by_cases hk : k' = k
    · rw [if_pos hk, if_pos hk, if_pos hany]
    · rw [if_neg hk, if_neg hk]
  · rw [if_neg hany, objGet_append]
    have hfalse : o.any (fun p => p.1 == k) = false := by
      cases hb : o.any (fun p => p.1 == k) with
      | true => exact absurd hb hany
      | false => rfl
    by_cases hk : k' = k
    · subst hk
      rw [objGet_none_of_any_false o k' hfalse]
      simp [objGet_cons]
    · rw [if_neg hk]
      cases hg : objGet o k' with
      | some v' => rfl
      | none =>
        rw [objGet_cons, if_neg (fun h => hk h.symm)]
        rfl

/-! ## `buildTemplateContext` (`src/templateEngine.ts`)

The context builder shared by all six URL builders: it starts from the
spread of the call-supplied standard variables (standard variables whose
value is `undefined` are omitted: a property holding `undefined` is
indistinguishable from an absent one through every read the engine
performs), then assigns each named capture whose group participated in the
match on top — an assignment with `context[name] = captures[index]`, so a
capture whose name collides with a standard variable overwrites it. -/
def buildGitTemplateContext (captures : List (Option String))
    (captureMapping : List (String × Nat))
    (standardVars : List (String × JsValue)) : List (String × JsValue) :=
  captureMapping.foldl
    (fun context ni =>
      match matchGet captures ni.2 with
      | some s => objSet context ni.1 (JsValue.vstr s)
      | none => context)
    standardVars

/-- Reference reading of the capture-application loop: the last capture
entry named `nm` whose group participated wins; with no such entry the
default (the standard variable binding) stands. -/
def lastCaptureFrom (captures : List (Option String)) (nm : String)
    (captureMapping : List (String × Nat)) (dflt : Option JsValue) : Option JsValue :=
  captureMapping.foldl
    (fun acc p =>
      match matchGet captures p.2 with
      | some s => if p.1 = nm then some (JsValue.vstr s) else acc
      | none => acc)
    dflt

theorem buildGitTemplateContext_objGet (captures : List (Option String)) :
    ∀ (capMap : List (String × Nat)) (std : List (String × JsValue)) (nm : String),
    objGet (buildGitTemplateContext captures capMap std) nm =
      lastCaptureFrom captures nm capMap (objGet std nm) := by
  intro capMap
  induction capMap with
  | nil => intro std nm; rfl
  | cons e rest ih =>
    intro std nm
    obtain ⟨k, i⟩ := e
    have hstep : buildGitTemplateContext captures ((k, i) :: rest) std =
        buildGitTemplateContext captures rest
          (match matchGet captures i with
           | some s => objSet std k (JsValue.vstr s)
           | none => std) := rfl
    have hstep2 : lastCaptureFrom captures nm ((k, i) :: rest) (objGet std nm) =
        lastCaptureFrom captures nm rest
          (match matchGet captures i with
           | some s => if k = nm then some (JsValue.vstr s) else objGet std nm
           | none => objGet std nm) := rfl
    rw [hstep, hstep2]
    cases hm : matchGet captures i with
    | none => exact ih std nm
    | some s =>
      show objGet (buildGitTemplateContext captures rest (objSet std k (JsValue.vstr s))) nm =
        lastCaptureFrom captures nm rest (if k = nm then some (JsValue.vstr s) else objGet std nm)
      have h2 : objGet (objSet std k (JsValue.vstr s)) nm =
          if k = nm then some (JsValue.vstr s) else objGet std nm := by
        rw [objGet_objSet]
        by_cases h : nm = k
        · rw [if_pos h, if_pos h.symm]
        · rw [if_neg h, if_neg (fun hh => h hh.symm)]
      rw [ih (objSet std k (JsValue.vstr s)) nm, h2]

theorem lastCaptureFrom_of_no_key (captures : List (Option String)) (nm : String) :
    ∀ (capMap : List (String × Nat)) (dflt : Option JsValue),
    (∀ p ∈ capMap, p.1 ≠ nm) → lastCaptureFrom captures nm capMap dflt = dflt := by
  intro capMap
  induction capMap with
  | nil => intro dflt _; rfl
  | cons e rest ih =>
    intro dflt h
    have he : e.1 ≠ nm := h e (List.mem_cons_self _ _)
    have htail : ∀ p ∈ rest, p.1 ≠ nm := fun p hp => h p (List.mem_cons_of_mem _ hp)
    have hstep : lastCaptureFrom captures nm (e :: rest) dflt =
        lastCaptureFrom captures nm rest
          (match matchGet captures e.2 with
           | some s => if e.1 = nm then some (JsValue.vstr s) else dflt
           | none => dflt) := rfl
    rw [hstep]
    cases hm : matchGet captures e.2 with
    | none => exact ih dflt htail
    | some s =>
      show lastCaptureFrom captures nm rest
        (if e.1 = nm then some (JsValue.vstr s) else dflt) = dflt
      rw [if_neg he]
      exact ih dflt htail

/-- With distinct capture names (a TOML table cannot repeat a key), a capture
entry whose group participated in the match decides the context binding for
its name — regardless of any standard variable of the same name. -/
theorem lastCaptureFrom_of_mem (captures : List (Option String)) (nm : String) :
    ∀ (capMap : List (String × Nat)) (dflt : Option JsValue) (i : Nat) (s : String),
    (capMap.map Prod.fst).Nodup → (nm, i) ∈ capMap → matchGet captures i = some s →
    lastCaptureFrom captures nm capMap dflt = some (JsValue.vstr s) := by
  intro capMap
  induction capMap with
  | nil => intro dflt i s _ hmem _; simp at hmem
  | cons e rest ih =>
    intro dflt i s hnd hmem hs
    obtain ⟨k, j⟩ := e
    rw [List.map_cons, List.nodup_cons] at hnd
    have hstep : lastCaptureFrom captures nm ((k, j) :: rest) dflt =
        lastCaptureFrom captures nm rest
          (match matchGet captures j with
           | some s' => if k = nm then some (JsValue.vstr s') else dflt
           | none => dflt) := rfl
    rcases List.mem_cons.mp hmem with he | hrest
    · injection he with h1 h2
      subst h1
      subst h2
      rw [hstep, hs]
      show lastCaptureFrom captures nm rest
        (if nm = nm then some (JsValue.vstr s) else dflt) = _
      rw [if_pos rfl]
      refine lastCaptureFrom_of_no_key captures nm rest _ ?_
      intro p hp hpnm
      exact hnd.1 (List.mem_map.mpr ⟨p, hp, hpnm⟩)
    · rw [hstep]
      exact ih _ i s hnd.2 hrest hs

/-! ## Provider configuration (`src/providerConfig.ts` / `src/gitProviderConfig.ts`) -/

/-- One git provider definition (the `ProviderConfig` record: required
file/directory templates and line fragments, optional PR-list / compare /
commit / commit-file templates, and the capture-name → group-index map). -/
structure ProviderConfig where
  name : String := ""
  remote_url_pattern : String := ""
  file_url_template : String := ""
  directory_url_template : String := ""
  line_fragment_single : String := ""
  line_fragment_range : String := ""
  pr_list_url_template : Option String := none
  compare_url_template : Option String := none
  commit_url_template : Option String := none
  commit_file_url_template : Option String := none
  captures : List (String × Nat) := []
deriving DecidableEq, Repr

structure ProviderSettings where
  provider_check_order : Option (List String) := none
  use_builtin_fallback : Option Bool := none
deriving DecidableEq, Repr

/-- The whole git provider configuration handed to `DynamicUrlBuilder`
(`this.config.provider` is the ordered provider-id table). -/
structure ProvidersConfig where
  provider : List (String × ProviderConfig) := []
  settings : Option ProviderSettings := none
deriving DecidableEq, Repr

/-! ## The `Array.prototype.sort` comparator used by `getProvidersInOrder`

`Array.prototype.sort` with a consistent comparator is a stable sort; it is
modelled by `List.insertionSort` over the reflexive relation
`comparator a b ≤ 0`, which Mathlib proves sorted and a permutation. -/

def jsIndexOfAux (x : String) : List String → Int → Int
  | [], _ => -1
  | a :: rest, i => if a = x then i else jsIndexOfAux x rest (i + 1)

/-- `Array.prototype.indexOf`: index of the first occurrence, `-1` if absent. -/
def jsIndexOf (l : List String) (x : String) : Int := jsIndexOfAux x l 0

/-- The comparator both `getProvidersInOrder` implementations pass to
`sort` when a custom check order is configured: ids appear in check-order
position, ids missing from the check order compare after every listed id
and equal to each other. -/
def customOrderCmp (order : List String) (aId bId : String) : Int :=
  if jsIndexOf order aId = -1 ∧ jsIndexOf order bId = -1 then 0
  else if jsIndexOf order aId = -1 then 1
  else if jsIndexOf order bId = -1 then -1
  else jsIndexOf order aId - jsIndexOf order bId

/-- Key view of the comparator: position in the order list, or the list
length when absent. -/
def customOrderKey (order : List String) (id : String) : Int :=
  if jsIndexOf order id = -1 then order.length else jsIndexOf order id

theorem jsIndexOfAux_spec (x : String) :
    ∀ (l : List String) (i : Int),
    jsIndexOfAux x l i = -1 ∨
      (i ≤ jsIndexOfAux x l i ∧ jsIndexOfAux x l i < i + l.length) := by
  intro l
  induction l with
  | nil => intro i; left; rfl
  | cons a rest ih =>
    intro i
    have hcons : jsIndexOfAux x (a :: rest) i =
        if a = x then i else jsIndexOfAux x rest (i + 1) := rfl
    rw [hcons]
    by_cases h : a = x
    · right
      rw [if_pos h]
      refine ⟨le_refl i, ?_⟩
      simp only [List.length_cons]
      push_cast
      omega
    · rw [if_neg h]
      rcases ih (i + 1) with h1 | ⟨h1, h2⟩
      · left; exact h1
      · right
        refine ⟨by omega, ?_⟩
        simp only [List.length_cons]
        push_cast
        omega

theorem jsIndexOf_spec (l : List String) (x : String) :
    jsIndexOf l x = -1 ∨ (0 ≤ jsIndexOf l x ∧ jsIndexOf l x < l.length) := by
  have := jsIndexOfAux_spec x l 0
  simpa [jsIndexOf] using this

theorem customOrderCmp_le_iff (order : List String) (a b : String) :
    customOrderCmp order a b ≤ 0 ↔ customOrderKey order a ≤ customOrderKey order b := by
  unfold customOrderCmp customOrderKey
  rcases jsIndexOf_spec order a with ha | ⟨ha1, ha2⟩ <;>
    rcases jsIndexOf_spec order b with hb | ⟨hb1, hb2⟩
  · simp [ha, hb]
  · have hbne : ¬ jsIndexOf order b = -1 := by omega
    simp [ha, hbne]
    try omega
  · have hane : ¬ jsIndexOf order a = -1 := by omega
    simp [hb, hane]
    try omega
  · have hane : ¬ jsIndexOf order a = -1 := by omega
    have hbne : ¬ jsIndexOf order b = -1 := by omega
    simp [hane, hbne]
    try omega

/-- The relation handed to the stable sort: `comparator a b ≤ 0`
("`a` need not come after `b`"). -/
def customOrderLe (order : List String) {β : Type} (a b : String × β) : Prop :=
  customOrderCmp order a.1 b.1 ≤ 0

instance (order : List String) {β : Type} : DecidableRel (customOrderLe (β := β) order) :=
  fun a b => inferInstanceAs (Decidable (customOrderCmp order a.1 b.1 ≤ 0))

instance (order : List String) {β : Type} : IsTotal (String × β) (customOrderLe order) := by
  refine ⟨fun a b => ?_⟩
  unfold customOrderLe
  rw [customOrderCmp_le_iff, customOrderCmp_le_iff]
  omega

instance (order : List String) {β : Type} : IsTrans (String × β) (customOrderLe order) := by
  refine ⟨fun a b c hab hbc => ?_⟩
  unfold customOrderLe at *
  rw [customOrderCmp_le_iff] at *
  omega

/-! ## `DynamicUrlBuilder` (`src/dynamicUrlBuilder.ts`)

The builder holds one `ProvidersConfig`; here the configuration and the
regex-match function are passed explicitly to each operation. -/

namespace DynamicUrlBuilder

/-- `getProvidersInOrder`: with a non-empty custom
`settings.provider_check_order` the providers are stably sorted by the
check-order comparator; otherwise (`undefined` or empty) the registry
insertion order is returned as-is. -/
def getProvidersInOrder (config : ProvidersConfig) : List (String × ProviderConfig) :=
  match config.settings.bind (fun s => s.provider_check_order) with
  | some customOrder =>
    if customOrder.length > 0 then
      List.insertionSort (customOrderLe customOrder) config.provider
    else config.provider
  | none => config.provider

/-- The provider loop of `detectProvider`: a pattern whose compilation
throws is caught, logged and skipped; a non-matching pattern is skipped;
the first match wins. -/
def detectProviderGo (rmatch : RegexMatchFn) (remoteUrl : String) :
    List (String × ProviderConfig) → Option (ProviderConfig × List (Option String))
  | [] => none
  | (_, provider) :: rest =>
    match rmatch provider.remote_url_pattern remoteUrl with
    | Except.error _ => detectProviderGo rmatch remoteUrl rest
    | Except.ok none => detectProviderGo rmatch remoteUrl rest
    | Except.ok (some m) => some (provider, m)

/-- `detectProvider(remoteUrl)`: first provider in check order whose
pattern compiles and matches, with its match array; `none` when no
provider matches. -/
def detectProvider (rmatch : RegexMatchFn) (config : ProvidersConfig)
    (remoteUrl : String) : Option (ProviderConfig × List (Option String)) :=
  detectProviderGo rmatch remoteUrl (getProvidersInOrder config)

/-- The standard-variable object literal of `buildFileUrl`:
`{ branch, relative_path, line_start, line_end }`.  Fields holding
`undefined` are omitted (a property bound to `undefined` is
indistinguishable from an absent one through every read performed). -/
def stdVarsFile (branch relativePath : String) (lineStart lineEnd : Option Int) :
    List (String × JsValue) :=
  [("branch", JsValue.vstr branch), ("relative_path", JsValue.vstr relativePath)] ++
    (match lineStart with
     | some n => [("line_start", JsValue.vnum n)]
     | none => []) ++
    (match lineEnd with
     | some n => [("line_end", JsValue.vnum n)]
     | none => [])

/-- `buildFileUrl(remoteUrl, branch, relativePath, lineStart?, lineEnd?)`. -/
def buildFileUrl (rmatch : RegexMatchFn) (config : ProvidersConfig)
    (remoteUrl branch relativePath : String)
    (lineStart lineEnd : Option Int) : Option String :=
  match detectProvider rmatch config remoteUrl with
  | none => none
  | some (provider, m) =>
    let context := buildGitTemplateContext m provider.captures
      (stdVarsFile branch relativePath lineStart lineEnd)
    let url := processTemplate provider.file_url_template context
    match lineStart with
    | none => some url
    | some ls =>
      let fragment :=
        match lineEnd with
        | some le =>
          if le ≠ ls then processTemplate provider.line_fragment_range context
          else processTemplate provider.line_fragment_single context
        | none => processTemplate provider.line_fragment_single context
      some (url ++ fragment)

/-- `buildDirectoryUrl(remoteUrl, branch, relativePath)`: no line fragment,
ever. -/
def buildDirectoryUrl (rmatch : RegexMatchFn) (config : ProvidersConfig)
    (remoteUrl branch relativePath : String) : Option String :=
  match detectProvider rmatch config remoteUrl with
  | none => none
  | some (provider, m) =>
    let context := buildGitTemplateContext m provider.captures
      [("branch", JsValue.vstr branch), ("relative_path", JsValue.vstr relativePath)]
    some (processTemplate provider.directory_url_template context)

/-- `buildPrListUrl(remoteUrl)`: requires `pr_list_url_template`. -/
def buildPrListUrl (rmatch : RegexMatchFn) (config : ProvidersConfig)
    (remoteUrl : String) : Option String :=
  match detectProvider rmatch config remoteUrl with
  | none => none
  | some (provider, m) =>
    match provider.pr_list_url_template with
    | none => none
    | some tmpl =>
      some (processTemplate tmpl (buildGitTemplateContext m provider.captures []))

/-- `buildCompareUrl(remoteUrl, baseBranch, currentBranch)`: requires
`compare_url_template`. -/
def buildCompareUrl (rmatch : RegexMatchFn) (config : ProvidersConfig)
    (remoteUrl baseBranch currentBranch : String) : Option String :=
  match detectProvider rmatch config remoteUrl with
  | none => none
  | some (provider, m) =>
    match provider.compare_url_template with
    | none => none
    | some tmpl =>
      some (processTemplate tmpl (buildGitTemplateContext m provider.captures
        [("base_branch", JsValue.vstr baseBranch),
         ("current_branch", JsValue.vstr currentBranch)]))

/-- `buildCommitUrl(remoteUrl, commitSha)`: requires `commit_url_template`. -/
def buildCommitUrl (rmatch : RegexMatchFn) (config : ProvidersConfig)
    (remoteUrl commitSha : String) : Option String :=
  match detectProvider rmatch config remoteUrl with
  | none => none
  | some (provider, m) =>
    match provider.commit_url_template with
    | none => none
    | some tmpl =>
      some (processTemplate tmpl (buildGitTemplateContext m provider.captures
        [("commit_sha", JsValue.vstr commitSha)]))

/-- `buildCommitFileUrl(remoteUrl, commitSha, relativePath, lineNumber?)`:
falls back to `buildCommitUrl` when the provider has no
`commit_file_url_template`; otherwise substitutes the commit-file context
including `commit_file_hash = sha256hex(relativePath)` (the hash function
`computeSHA256Hash` delegates to the platform crypto library and is passed
explicitly). -/
def buildCommitFileUrl (rmatch : RegexMatchFn) (sha256hex : String → String)
    (config : ProvidersConfig) (remoteUrl commitSha relativePath : String)
    (lineNumber : Option Int) : Option String :=
  match detectProvider rmatch config remoteUrl with
  | none => none
  | some (provider, m) =>
    match provider.commit_file_url_template with
    | none => buildCommitUrl rmatch config remoteUrl commitSha
    | some tmpl =>
      let context := buildGitTemplateContext m provider.captures
        ([("commit_sha", JsValue.vstr commitSha),
          ("commit_file_hash", JsValue.vstr (sha256hex relativePath)),
          ("commit_file_path", JsValue.vstr relativePath)] ++
         (match lineNumber with
          | some n => [("commit_line_number", JsValue.vnum n)]
          | none => []))
      some (processTemplate tmpl context)

end DynamicUrlBuilder

/-! ## Ticket providers (`src/ticketProviderConfig.ts`, `src/ticketUrlBuilder.ts`) -/

structure TicketProviderConfig where
  name : String := ""
  ticket_pattern : String := ""
  ticket_url_template : String := ""
  priority : Option Int := none
  captures : Option (List (String × Nat)) := none
deriving DecidableEq, Repr

structure TicketSettings where
  default_provider : Option String := none
  check_order : Option (List String) := none
  use_builtin_fallback : Option Bool := none
deriving DecidableEq, Repr

structure TicketProvidersConfig where
  ticket_provider : List (String × TicketProviderConfig) := []
  settings : Option TicketSettings := none
deriving DecidableEq, Repr

/-- Result record of `extractTicket`. -/
structure TicketMatch where
  provider : TicketProviderConfig
  providerId : String
  ticketId : String
  url : String
deriving DecidableEq, Repr

/-- The priority comparator of the ticket `getProvidersInOrder`:
`(a.priority ?? 999) - (b.priority ?? 999)`. -/
def priorityCmp (a b : String × TicketProviderConfig) : Int :=
  a.2.priority.getD 999 - b.2.priority.getD 999

/-- Relation handed to the stable priority sort: `priorityCmp a b ≤ 0`. -/
def priorityLe (a b : String × TicketProviderConfig) : Prop := priorityCmp a b ≤ 0

instance : DecidableRel priorityLe :=
  fun a b => inferInstanceAs (Decidable (priorityCmp a b ≤ 0))

theorem priorityLe_iff (a b : String × TicketProviderConfig) :
    priorityLe a b ↔ a.2.priority.getD 999 ≤ b.2.priority.getD 999 := by
  unfold priorityLe priorityCmp
  omega

instance : IsTotal (String × TicketProviderConfig) priorityLe := by
  refine ⟨fun a b => ?_⟩
  rw [priorityLe_iff, priorityLe_iff]
  omega

instance : IsTrans (String × TicketProviderConfig) priorityLe := by
  refine ⟨fun a b c hab hbc => ?_⟩
  rw [priorityLe_iff] at *
  omega

/-! ### `String.prototype.replace` with a `g`-flagged literal pattern

`buildTicketUrl` substitutes with
`url.replace(new RegExp("\\$\\{" + key + "\\}", "g"), String(value))`.
Capture names are treated as regex-literal text (no metacharacters — true
of every shipped configuration), so the constructed regex matches exactly
the character sequence `${key}`; the replacement string goes through the
`GetSubstitution` expansion (`$$`, `$&`, the before/after forms; `$n` stays
literal since the pattern has no capture groups). -/

/-- Prefix test on character lists. -/
def isPrefixList : List Char → List Char → Bool
  | [], _ => true
  | _ :: _, [] => false
  | a :: as, b :: bs => a == b && isPrefixList as bs

/-- `GetSubstitution` expansion of a replacement string: `$$` gives `$`,
`$&` the matched text, a backquoted dollar form the text before the match,
a quoted dollar form the text after it; any other `$` is literal. -/
def expandRepl (repl matched before after : List Char) : List Char :=
  match repl with
  | [] => []
  | c :: rest =>
    if c = '$' then
      match rest with
      | [] => ['$']
      | d :: rest2 =>
        if d = '$' then '$' :: expandRepl rest2 matched before after
        else if d = '&' then matched ++ expandRepl rest2 matched before after
        else if d = Char.ofNat 96 then before ++ expandRepl rest2 matched before after
        else if d = '\'' then after ++ expandRepl rest2 matched before after
        else '$' :: d :: expandRepl rest2 matched before after
    else c :: expandRepl rest matched before after

/-- Fuel-indexed global replace of the literal pattern `pat`: each
leftmost non-overlapping occurrence is replaced by the expanded
replacement; `before` tracks the original text left of the cursor.  (The
constructed pattern `${key}` is never empty; an empty pattern is returned
unchanged.) -/
def jsRAAux (pat repl : List Char) : Nat → List Char → List Char → List Char
  | 0, _, s => s
  | _ + 1, _, [] => []
  | fuel + 1, before, c :: rest =>
    if pat ≠ [] ∧ isPrefixList pat (c :: rest) then
      expandRepl repl pat before ((c :: rest).drop pat.length) ++
        jsRAAux pat repl fuel (before ++ pat) ((c :: rest).drop pat.length)
    else c :: jsRAAux pat repl fuel (before ++ [c]) rest

def jsRACore (pat repl before s : List Char) : List Char :=
  jsRAAux pat repl s.length before s

/-- `str.replace(new RegExp(escapedLiteral(pat), "g"), repl)`. -/
def jsReplaceAll (pat repl s : List Char) : List Char :=
  jsRACore pat repl [] s

theorem jsRAAux_fuel (pat repl : List Char) :
    ∀ f1 f2 b s, s.length ≤ f1 → s.length ≤ f2 →
    jsRAAux pat repl f1 b s = jsRAAux pat repl f2 b s := by
  intro f1
  induction f1 with
  | zero =>
    intro f2 b s h1 _
    have hs : s = [] := List.length_eq_zero.mp (Nat.le_zero.mp h1)
    subst hs
    cases f2 <;> rfl
  | succ f ih =>
    intro f2 b s h1 h2
    cases s with
    | nil => cases f2 <;> rfl
    | cons c rest =>
      cases f2 with
      | zero => simp at h2
      | succ f2' =>
        have hr1 : rest.length ≤ f := by simp at h1; omega
        have hr2 : rest.length ≤ f2' := by simp at h2; omega
        simp only [jsRAAux]
        by_cases hp : pat ≠ [] ∧ isPrefixList pat (c :: rest)
        · have hlen : ((c :: rest).drop pat.length).length ≤ f := by
            have : pat.length ≥ 1 := by
              cases pat with
              | nil => exact absurd rfl hp.1
              | cons _ _ => simp
            simp only [List.length_drop, List.length_cons]
            omega
          have hlen2 : ((c :: rest).drop pat.length).length ≤ f2' := by
            have : pat.length ≥ 1 := by
              cases pat with
              | nil => exact absurd rfl hp.1
              | cons _ _ => simp
            simp only [List.length_drop, List.length_cons]
            omega
          simp only [if_pos hp, ih f2' _ _ hlen hlen2]
        · simp only [if_neg hp, ih f2' _ _ hr1 hr2]

theorem jsRAAux_eq (pat repl : List Char) {fuel : Nat} {b s : List Char}
    (h : s.length ≤ fuel) : jsRAAux pat repl fuel b s = jsRACore pat repl b s :=
  jsRAAux_fuel pat repl fuel s.length b s h (Nat.le_refl _)

theorem jsRACore_nil (pat repl b : List Char) : jsRACore pat repl b [] = [] := rfl

theorem isPrefixList_append (xs ys : List Char) : isPrefixList xs (xs ++ ys) = true := by
  induction xs with
  | nil => rfl
  | cons a as ih => simp [isPrefixList, ih]

theorem jsRACore_hit (pat repl b ys : List Char) (hp : pat ≠ []) :
    jsRACore pat repl b (pat ++ ys) =
      expandRepl repl pat b ys ++ jsRACore pat repl (b ++ pat) ys := by
  cases pat with
  | nil => exact absurd rfl hp
  | cons p0 pt =>
    show jsRAAux _ _ (((p0 :: pt) ++ ys).length) b ((p0 :: pt) ++ ys) = _
    have hlen : ((p0 :: pt) ++ ys).length = (pt ++ ys).length + 1 := by simp
    rw [hlen]
    have hpre : isPrefixList (p0 :: pt) (p0 :: (pt ++ ys)) = true := by
      have := isPrefixList_append (p0 :: pt) ys
      rwa [show (p0 :: pt) ++ ys = p0 :: (pt ++ ys) from rfl] at this
    rw [show (p0 :: pt) ++ ys = p0 :: (pt ++ ys) from rfl]
    have hstep : jsRAAux (p0 :: pt) repl ((pt ++ ys).length + 1) b (p0 :: (pt ++ ys)) =
        if (p0 :: pt) ≠ [] ∧ isPrefixList (p0 :: pt) (p0 :: (pt ++ ys)) then
          expandRepl repl (p0 :: pt) b ((p0 :: (pt ++ ys)).drop (p0 :: pt).length) ++
            jsRAAux (p0 :: pt) repl ((pt ++ ys).length) (b ++ (p0 :: pt))
              ((p0 :: (pt ++ ys)).drop (p0 :: pt).length)
        else p0 :: jsRAAux (p0 :: pt) repl ((pt ++ ys).length) (b ++ [p0]) (pt ++ ys) := rfl
    rw [hstep, if_pos ⟨by simp, hpre⟩]
    have hdrop : (p0 :: (pt ++ ys)).drop (p0 :: pt).length = ys := by
      simp only [List.length_cons, List.drop_succ_cons]
      rw [show pt ++ ys = pt ++ ys from rfl, List.drop_left]
    rw [hdrop]
    congr 1
    have hyslen : ys.length ≤ (pt ++ ys).length := by simp
    exact jsRAAux_eq (p0 :: pt) repl hyslen

theorem jsRACore_miss (pat repl b : List Char) (c : Char) (rest : List Char)
    (h : ¬ (pat ≠ [] ∧ isPrefixList pat (c :: rest))) :
    jsRACore pat repl b (c :: rest) = c :: jsRACore pat repl (b ++ [c]) rest := by
  show jsRAAux _ _ (rest.length + 1) b (c :: rest) = _
  have hstep : jsRAAux pat repl (rest.length + 1) b (c :: rest) =
      if pat ≠ [] ∧ isPrefixList pat (c :: rest) then
        expandRepl repl pat b ((c :: rest).drop pat.length) ++
          jsRAAux pat repl rest.length (b ++ pat) ((c :: rest).drop pat.length)
      else c :: jsRAAux pat repl rest.length (b ++ [c]) rest := rfl
  rw [hstep, if_neg h]
  exact congrArg (c :: ·) (jsRAAux_eq pat repl (Nat.le_refl _))

/-- The literal text the constructed per-key regex `\$\{key\}` matches. -/
def phPattern (key : String) : List Char := '$' :: '{' :: (key.data ++ ['}'])

namespace TicketUrlBuilder

def isUpperAZ (c : Char) : Bool := 'A' ≤ c && c ≤ 'Z'

def isDigit09 (c : Char) : Bool := '0' ≤ c && c ≤ '9'

/-- `ticketId.match(/^([A-Z]+)-(\d+)$/)`: an anchored match of an uppercase
run, a dash and a digit run; returns the two groups. -/
def parseProjectTicket (s : List Char) : Option (List Char × List Char) :=
  match s.dropWhile isUpperAZ with
  | '-' :: ds =>
    if !(s.takeWhile isUpperAZ).isEmpty && !ds.isEmpty && ds.all isDigit09 then
      some (s.takeWhile isUpperAZ, ds)
    else none
  | _ => none

/-- `ticketId.match(/\d+/)`: the first maximal digit run, if any. -/
def firstDigitRun (s : List Char) : Option (List Char) :=
  match s.dropWhile (fun c => !isDigit09 c) with
  | [] => none
  | t => some (t.takeWhile isDigit09)

/-- The context `{ ticket_id }` extended by the `project_code` /
`ticket_number` derivation from the ticket id shape. -/
def ticketDerivedContext (ticketId : String) : List (String × String) :=
  match parseProjectTicket ticketId.data with
  | some (letters, digits) =>
    objSet (objSet [("ticket_id", ticketId)] "project_code" (String.mk letters))
      "ticket_number" (String.mk digits)
  | none =>
    match firstDigitRun ticketId.data with
    | some ds => objSet [("ticket_id", ticketId)] "ticket_number" (String.mk ds)
    | none => [("ticket_id", ticketId)]

/-- The context assembled by `buildTicketUrl`: `ticket_id` first, then the
`project_code`/`ticket_number` derivation from the ticket id, then the
provider-declared captures (only truthy group values, so `undefined` and
the empty string are both skipped) assigned on top. -/
def ticketContext (provider : TicketProviderConfig) (ticketId : String)
    (m : List (Option String)) : List (String × String) :=
  match provider.captures with
  | none => ticketDerivedContext ticketId
  | some caps =>
    caps.foldl
      (fun ctx ni =>
        match matchGet m ni.2 with
        | some s => if s ≠ "" then objSet ctx ni.1 s else ctx
        | none => ctx)
      (ticketDerivedContext ticketId)

/-- `buildTicketUrl(provider, ticketId, match)`: the context entries are
substituted sequentially, each `${key}` replaced globally by its value
(every context entry holds a defined string, so the `value !== undefined`
guard always passes); placeholders never bound in the context stay
literal. -/
def buildTicketUrl (provider : TicketProviderConfig) (ticketId : String)
    (m : List (Option String)) : String :=
  String.mk
    ((ticketContext provider ticketId m).foldl
      (fun url kv => jsReplaceAll (phPattern kv.1) kv.2.data url)
      provider.ticket_url_template.data)

/-- `getProvidersInOrder` of the ticket engine: a non-empty explicit
`settings.check_order` sorts by the check-order comparator; otherwise the
providers are sorted by ascending `priority ?? 999`. -/
def getProvidersInOrder (config : TicketProvidersConfig) :
    List (String × TicketProviderConfig) :=
  match config.settings.bind (fun s => s.check_order) with
  | some customOrder =>
    if customOrder.length > 0 then
      List.insertionSort (customOrderLe customOrder) config.ticket_provider
    else List.insertionSort priorityLe config.ticket_provider
  | none => List.insertionSort priorityLe config.ticket_provider

/-- The provider loop of `extractTicket`: a throwing pattern is caught and
the provider skipped; a match with an `undefined` first capture group makes
`buildTicketUrl` throw on `ticketId.match(...)`, which the same handler
catches, so the provider is likewise skipped. -/
def extractTicketGo (rmatch : RegexMatchFn) (branchName : String) :
    List (String × TicketProviderConfig) → Option TicketMatch
  | [] => none
  | (providerId, provider) :: rest =>
    match rmatch provider.ticket_pattern branchName with
    | Except.error _ => extractTicketGo rmatch branchName rest
    | Except.ok none => extractTicketGo rmatch branchName rest
    | Except.ok (some m) =>
      match matchGet m 1 with
      | none => extractTicketGo rmatch branchName rest
      | some ticketId =>
        some { provider := provider, providerId := providerId, ticketId := ticketId,
               url := buildTicketUrl provider ticketId m }

/-- `extractTicket(branchName)`. -/
def extractTicket (rmatch : RegexMatchFn) (config : TicketProvidersConfig)
    (branchName : String) : Option TicketMatch :=
  extractTicketGo rmatch branchName (getProvidersInOrder config)

end TicketUrlBuilder

/-! ## Configuration merging

`TicketProviderLoader.mergeConfigs` (`src/ticketProviderLoader.ts`) and
`BrowserConfigLoader.mergeConfigs` (`src/browserConfigLoader.ts`). -/

/-- `providerId in baseTable` (a key-membership test on the object). -/
def keyMem {β : Type} (o : List (String × β)) (k : String) : Bool :=
  o.any (fun p => p.1 == k)

/-- The defensive reconciliation loop both loaders run: every id not yet in
the order is pushed to the end, in scan order. -/
def appendMissing (ord : List String) (ids : List String) : List String :=
  ids.foldl (fun o i => if o.contains i then o else o ++ [i]) ord

/-- The ticket loader's `currentOrder.unshift(providerId)` loop: every new
id not yet in the order is pushed to the front. -/
def prependMissing (ord : List String) (ids : List String) : List String :=
  ids.foldl (fun o i => if o.contains i then o else i :: o) ord

namespace TicketProviderLoader

/-- `{ ...base.ticket_provider }` then provider-level wholesale replacement
by each override entry. -/
def mergedProviders (base override : TicketProvidersConfig) :
    List (String × TicketProviderConfig) :=
  override.ticket_provider.foldl (fun acc p => objSet acc p.1 p.2) base.ticket_provider

/-- The ids of override providers not present in the base table, in
encounter order (`newProviderIds`). -/
def newProviderIds (base override : TicketProvidersConfig) : List String :=
  (override.ticket_provider.filter (fun p => !keyMem base.ticket_provider p.1)).map
    (fun p => p.1)

/-- Field-level settings merge, before the check-order reconciliation. -/
def mergedSettings (base override : TicketProvidersConfig) : TicketSettings :=
  (match override.settings with
   | none => base.settings
   | some os =>
     let s := base.settings.getD {}
     let s := match os.check_order with
       | some co => { s with check_order := some co }
       | none => s
     let s := match os.default_provider with
       | some dp => { s with default_provider := some dp }
       | none => s
     let s := match os.use_builtin_fallback with
       | some u => { s with use_builtin_fallback := some u }
       | none => s
     some s).getD {}

/-- The reconciled check order: generated from the provider keys when no
explicit order survives the settings merge; otherwise the new override
provider ids are unshifted to the front and any id still missing is
appended at the end. -/
def finalCheckOrder (base override : TicketProvidersConfig) : List String :=
  match (mergedSettings base override).check_order with
  | none => (mergedProviders base override).map (fun p => p.1)
  | some currentOrder =>
    appendMissing (prependMissing currentOrder (newProviderIds base override))
      ((mergedProviders base override).map (fun p => p.1))

/-- `TicketProviderLoader.mergeConfigs(base, override)`. -/
def mergeConfigs (base override : TicketProvidersConfig) : TicketProvidersConfig :=
  { ticket_provider := mergedProviders base override,
    settings := some { mergedSettings base override with
                       check_order := some (finalCheckOrder base override) } }

/-- The merged configuration's check order (always present after a merge). -/
def checkOrderOf (c : TicketProvidersConfig) : List String :=
  (c.settings.bind (fun s => s.check_order)).getD []

end TicketProviderLoader

/-! ### Browser configuration (`src/browserConfig.ts`) -/

structure BrowserConfig where
  label : String := ""
  description : String := ""
  executable_windows : Option String := none
  executable_macos : Option String := none
  executable_linux : Option String := none
  aliases : List String := []
  platforms : Option (List String) := none
  custom_path_windows : Option String := none
  custom_path_macos : Option String := none
  custom_path_linux : Option String := none
  launch_args : Option (List String) := none
  icon : Option String := none
deriving DecidableEq, Repr

structure BrowserSettings where
  browser_order : Option (List String) := none
  use_builtin_fallback : Option Bool := none
  filter_by_platform : Option Bool := none
deriving DecidableEq, Repr

structure BrowsersConfig where
  browser : List (String × BrowserConfig) := []
  settings : Option BrowserSettings := none
deriving DecidableEq, Repr

namespace BrowserConfigLoader

/-- `{ ...base.browser }` then browser-level wholesale replacement. -/
def mergedBrowsers (base override : BrowsersConfig) : List (String × BrowserConfig) :=
  override.browser.foldl (fun acc p => objSet acc p.1 p.2) base.browser

/-- Field-level settings merge, before the browser-order reconciliation. -/
def mergedSettings (base override : BrowsersConfig) : BrowserSettings :=
  (match override.settings with
   | none => base.settings
   | some os =>
     let s := base.settings.getD {}
     let s := match os.browser_order with
       | some bo => { s with browser_order := some bo }
       | none => s
     let s := match os.use_builtin_fallback with
       | some u => { s with use_builtin_fallback := some u }
       | none => s
     let s := match os.filter_by_platform with
       | some f => { s with filter_by_platform := some f }
       | none => s
     some s).getD {}

/-- The reconciled browser order: generated from the browser keys when no
explicit order survives the settings merge; otherwise any new browser id is
appended **to the end**, in key order. -/
def finalBrowserOrder (base override : BrowsersConfig) : List String :=
  match (mergedSettings base override).browser_order with
  | none => (mergedBrowsers base override).map (fun p => p.1)
  | some bo => appendMissing bo ((mergedBrowsers base override).map (fun p => p.1))

/-- `BrowserConfigLoader.mergeConfigs(base, override)`. -/
def mergeConfigs (base override : BrowsersConfig) : BrowsersConfig :=
  { browser := mergedBrowsers base override,
    settings := some { mergedSettings base override with
                       browser_order := some (finalBrowserOrder base override) } }

/-- The merged configuration's browser order (always present after a merge). -/
def browserOrderOf (c : BrowsersConfig) : List String :=
  (c.settings.bind (fun s => s.browser_order)).getD []

end BrowserConfigLoader

/-! ### Lemmas about the reconciliation loops -/

theorem appendMissing_cons (ord : List String) (i : String) (rest : List String) :
    appendMissing ord (i :: rest) =
      appendMissing (if ord.contains i then ord else ord ++ [i]) rest := rfl

theorem prependMissing_cons (ord : List String) (i : String) (rest : List String) :
    prependMissing ord (i :: rest) =
      prependMissing (if ord.contains i then ord else i :: ord) rest := rfl

theorem appendMissing_mono (x : String) :
    ∀ (ids ord : List String), x ∈ ord → x ∈ appendMissing ord ids := by
  intro ids
  induction ids with
  | nil => intro ord h; exact h
  | cons i rest ih =>
    intro ord h
    rw [appendMissing_cons]
    refine ih _ ?_
    by_cases hc : ord.contains i
    · rw [if_pos hc]; exact h
    · rw [if_neg hc]; exact List.mem_append_left _ h

theorem mem_appendMissing (x : String) :
    ∀ (ids ord : List String), x ∈ ids → x ∈ appendMissing ord ids := by
  intro ids
  induction ids with
  | nil => intro ord h; simp at h
  | cons i rest ih =>
    intro ord h
    rw [appendMissing_cons]
    rcases List.mem_cons.mp h with he | hrest
    · subst he
      refine appendMissing_mono x rest _ ?_
      by_cases hc : ord.contains x
      · rw [if_pos hc]; exact List.mem_of_elem_eq_true hc
      · rw [if_neg hc]; exact List.mem_append_right _ (List.mem_singleton_self _)
    · exact ih _ hrest

/-- `appendMissing` keeps the existing order as a prefix and appends only
new ids, in scan order. -/
theorem appendMissing_decomp :
    ∀ (ids ord : List String), ∃ post,
      appendMissing ord ids = ord ++ post ∧ post.Sublist ids ∧ ∀ x ∈ post, x ∉ ord := by
  intro ids
  induction ids with
  | nil => intro ord; exact ⟨[], by simp [appendMissing], List.nil_sublist _, by simp⟩
  | cons i rest ih =>
    intro ord
    rw [appendMissing_cons]
    by_cases hc : ord.contains i
    · rw [if_pos hc]
      obtain ⟨post, h1, h2, h3⟩ := ih ord
      exact ⟨post, h1, h2.cons i, h3⟩
    · rw [if_neg hc]
      obtain ⟨post', h1, h2, h3⟩ := ih (ord ++ [i])
      refine ⟨i :: post', ?_, h2.cons₂ i, ?_⟩
      · rw [h1, List.append_assoc]
        rfl
      · intro x hx
        rcases List.mem_cons.mp hx with he | hp
        · subst he
          intro hmem
          exact hc (List.elem_eq_true_of_mem hmem)
        · intro hmem
          exact h3 x hp (List.mem_append_left _ hmem)

/-- `prependMissing` pushes each new id to the **front**; the existing
order survives as a suffix. -/
theorem prependMissing_decomp :
    ∀ (ids ord : List String), ∃ pre,
      prependMissing ord ids = pre ++ ord ∧ ∀ x ∈ pre, x ∈ ids ∧ x ∉ ord := by
  intro ids
  induction ids with
  | nil => intro ord; exact ⟨[], rfl, by simp⟩
  | cons i rest ih =>
    intro ord
    rw [prependMissing_cons]
    by_cases hc : ord.contains i
    · rw [if_pos hc]
      obtain ⟨pre, h1, h2⟩ := ih ord
      exact ⟨pre, h1, fun x hx => ⟨List.mem_cons_of_mem _ (h2 x hx).1, (h2 x hx).2⟩⟩
    · rw [if_neg hc]
      obtain ⟨pre', h1, h2⟩ := ih (i :: ord)
      refine ⟨pre' ++ [i], ?_, ?_⟩
      · rw [h1, List.append_assoc]
        rfl
      · intro x hx
        rcases List.mem_append.mp hx with hp | hi
        · refine ⟨List.mem_cons_of_mem _ (h2 x hp).1, ?_⟩
          intro hmem
          exact (h2 x hp).2 (List.mem_cons_of_mem _ hmem)
        · rw [List.mem_singleton] at hi
          subst hi
          refine ⟨List.mem_cons_self _ _, ?_⟩
          intro hmem
          exact hc (List.elem_eq_true_of_mem hmem)

/-! ## Relating the ticket engine's sequential substitution to the shared
template engine -/

theorem expandRepl_no_dollar (matched before after : List Char) :
    ∀ repl : List Char, '$' ∉ repl → expandRepl repl matched before after = repl := by
  intro repl
  induction repl with
  | nil => intro _; rfl
  | cons c rest ih =>
    intro h
    have hc : c ≠ '$' := fun hc => h (by rw [hc]; exact List.mem_cons_self _ _)
    have hrest : '$' ∉ rest := fun hm => h (List.mem_cons_of_mem _ hm)
    cases rest with
    | nil =>
      have hstep : expandRepl [c] matched before after =
          if c = '$' then ['$'] else c :: expandRepl [] matched before after := rfl
      rw [hstep, if_neg hc]
      rfl
    | cons d rest2 =>
      have hstep : expandRepl (c :: d :: rest2) matched before after =
          if c = '$' then
            (if d = '$' then '$' :: expandRepl rest2 matched before after
             else if d = '&' then matched ++ expandRepl rest2 matched before after
             else if d = Char.ofNat 96 then before ++ expandRepl rest2 matched before after
             else if d = '\'' then after ++ expandRepl rest2 matched before after
             else '$' :: d :: expandRepl rest2 matched before after)
          else c :: expandRepl (d :: rest2) matched before after := rfl
      rw [hstep, if_neg hc, ih hrest]

theorem jsRACore_skip (pat repl : List Char) (hpat : pat.head? = some '$') :
    ∀ (xs : List Char), '$' ∉ xs → ∀ (b ys : List Char),
    jsRACore pat repl b (xs ++ ys) = xs ++ jsRACore pat repl (b ++ xs) ys := by
  intro xs
  induction xs with
  | nil => intro _ b ys; simp
  | cons c rest ih =>
    intro h b ys
    have hc : c ≠ '$' := fun hc => h (by rw [hc]; exact List.mem_cons_self _ _)
    have hrest : '$' ∉ rest := fun hm => h (List.mem_cons_of_mem _ hm)
    have hmiss : ¬ (pat ≠ [] ∧ isPrefixList pat (c :: (rest ++ ys))) := by
      rintro ⟨hne, hpre⟩
      cases pat with
      | nil => exact hne rfl
      | cons p0 pt =>
        have hp0 : p0 = '$' := by simpa using hpat
        subst hp0
        have hstep : isPrefixList ('$' :: pt) (c :: (rest ++ ys)) =
            (('$' == c) && isPrefixList pt (rest ++ ys)) := rfl
        rw [hstep, Bool.and_eq_true, beq_iff_eq] at hpre
        exact hc hpre.1.symm
    rw [List.cons_append, jsRACore_miss pat repl b c (rest ++ ys) hmiss,
      ih hrest (b ++ [c]) ys, List.append_assoc]
    rfl

/-- A key pattern `k}` can only be a prefix of `nm}…` when the two
brace-free names agree. -/
theorem keyBrace_not_pre :
    ∀ (k nm ys : List Char), k ≠ nm → '}' ∉ k → '}' ∉ nm →
    isPrefixList (k ++ ['}']) (nm ++ '}' :: ys) = false := by
  intro k
  induction k with
  | nil =>
    intro nm ys hne hk hnm
    cases nm with
    | nil => exact absurd rfl hne
    | cons c nmrest =>
      have hc : ¬ ('}' = c) := fun hc => hnm (by rw [← hc]; exact List.mem_cons_self _ _)
      simp [isPrefixList, hc]
  | cons a krest ih =>
    intro nm ys hne hk hnm
    have ha : ¬ (a = '}') := fun h => hk (by rw [h]; exact List.mem_cons_self _ _)
    cases nm with
    | nil => simp [isPrefixList, ha]
    | cons b nmrest =>
      by_cases hab : a = b
      · subst hab
        have hne' : krest ≠ nmrest := fun h => hne (by rw [h])
        have hk' : '}' ∉ krest := fun h => hk (List.mem_cons_of_mem _ h)
        have hnm' : '}' ∉ nmrest := fun h => hnm (List.mem_cons_of_mem _ h)
        simp [isPrefixList, ih nmrest ys hne' hk' hnm']
      · simp [isPrefixList, hab]

/-- Symbolic view of a template as literal chunks and placeholders, used to
relate the two substitution engines. -/
inductive TmplTok where
  | lit (cs : List Char)
  | ph (nm : List Char)
deriving DecidableEq, Repr

def flattenToks : List TmplTok → List Char
  | [] => []
  | TmplTok.lit cs :: ts => cs ++ flattenToks ts
  | TmplTok.ph nm :: ts => '$' :: '{' :: (nm ++ '}' :: flattenToks ts)

/-- Well-formedness for the equivalence: literal chunks are `$`-free,
placeholder names are non-empty, `$`-free and `}`-free. -/
def tokWF : TmplTok → Bool
  | TmplTok.lit cs => !cs.contains '$'
  | TmplTok.ph nm => !nm.isEmpty && !nm.contains '$' && !nm.contains '}'

/-- One sequential-substitution step on the symbolic template: the
placeholder bound by this key becomes a literal chunk holding the value. -/
def substTok (k v : String) : TmplTok → TmplTok
  | TmplTok.lit cs => TmplTok.lit cs
  | TmplTok.ph nm => if String.mk nm = k then TmplTok.lit v.data else TmplTok.ph nm

/-- All context entries applied in order to one token. -/
def tokApply (ctx : List (String × String)) (t : TmplTok) : TmplTok :=
  ctx.foldl (fun t kv => substTok kv.1 kv.2 t) t

/-- What both engines produce on a fully-bound symbolic template. -/
def renderToks (ctx : List (String × String)) : List TmplTok → List Char
  | [] => []
  | TmplTok.lit cs :: ts => cs ++ renderToks ctx ts
  | TmplTok.ph nm :: ts =>
    ((objGet ctx (String.mk nm)).getD "").data ++ renderToks ctx ts

theorem tokWF_lit {cs : List Char} (h : tokWF (TmplTok.lit cs) = true) : '$' ∉ cs := by
  simp [tokWF] at h
  exact h

theorem tokWF_ph {nm : List Char} (h : tokWF (TmplTok.ph nm) = true) :
    nm ≠ [] ∧ '$' ∉ nm ∧ '}' ∉ nm := by
  simp [tokWF] at h
  exact ⟨by
    intro he
    rw [he] at h
    simp at h, h.1.2, h.2⟩

theorem tokWF_substTok {k v : String} (hv : '$' ∉ v.data) :
    ∀ t, tokWF t = true → tokWF (substTok k v t) = true := by
  intro t h
  cases t with
  | lit cs => exact h
  | ph nm =>
    show tokWF (if String.mk nm = k then TmplTok.lit v.data else TmplTok.ph nm) = true
    by_cases hk : String.mk nm = k
    · rw [if_pos hk]
      simp [tokWF]
      intro hmem
      exact hv hmem
    · rw [if_neg hk]
      exact h

/-- One global replace on a flattened well-formed template substitutes
exactly the placeholders named by the key. -/
theorem jsRA_flatten (k v : String)
    (hk : k.data ≠ [] ∧ '$' ∉ k.data ∧ '}' ∉ k.data) (hv : '$' ∉ v.data) :
    ∀ (ts : List TmplTok), (∀ t ∈ ts, tokWF t = true) → ∀ (b : List Char),
    jsRACore (phPattern k) v.data b (flattenToks ts) =
      flattenToks (ts.map (substTok k v)) := by
  intro ts
  induction ts with
  | nil => intro _ b; exact jsRACore_nil _ _ _
  | cons t ts' ih =>
    intro hWF b
    have hWFt := hWF t (List.mem_cons_self _ _)
    have hWF' : ∀ t ∈ ts', tokWF t = true := fun t ht => hWF t (List.mem_cons_of_mem _ ht)
    cases t with
    | lit cs =>
      have hcs := tokWF_lit hWFt
      show jsRACore (phPattern k) v.data b (cs ++ flattenToks ts') =
        cs ++ flattenToks (List.map (substTok k v) ts')
      rw [jsRACore_skip (phPattern k) v.data rfl cs hcs b (flattenToks ts'),
        ih hWF' (b ++ cs)]
    | ph nm =>
      obtain ⟨hne, hnd, hnb⟩ := tokWF_ph hWFt
      by_cases hnm : nm = k.data
      · subst hnm
        have hflat : flattenToks (TmplTok.ph k.data :: ts') =
            phPattern k ++ flattenToks ts' := by
          show '$' :: '{' :: (k.data ++ '}' :: flattenToks ts') =
            ('$' :: '{' :: (k.data ++ ['}'])) ++ flattenToks ts'
          simp
        have hsub : substTok k v (TmplTok.ph k.data) = TmplTok.lit v.data := by
          show (if String.mk k.data = k then TmplTok.lit v.data else TmplTok.ph k.data) = _
          rw [if_pos rfl]
        rw [hflat, jsRACore_hit _ _ _ _ (by simp [phPattern]),
          expandRepl_no_dollar _ _ _ _ hv, ih hWF' _, List.map_cons, hsub]
        rfl
      · have hmiss : ¬ ((phPattern k) ≠ [] ∧
            isPrefixList (phPattern k) ('$' :: '{' :: (nm ++ '}' :: flattenToks ts'))) := by
          rintro ⟨-, hpre⟩
          have hstep : isPrefixList (phPattern k)
              ('$' :: '{' :: (nm ++ '}' :: flattenToks ts')) =
              isPrefixList (k.data ++ ['}']) (nm ++ '}' :: flattenToks ts') := by
            show (('$' == '$') && (('{' == '{') &&
              isPrefixList (k.data ++ ['}']) (nm ++ '}' :: flattenToks ts'))) = _
            simp
          rw [hstep,
            keyBrace_not_pre k.data nm _ (fun h => hnm h.symm) hk.2.2 hnb] at hpre
          simp at hpre
        have hxsfree : '$' ∉ ('{' :: (nm ++ ['}'])) := by
          intro hmem
          rcases List.mem_cons.mp hmem with h | h
          · simp at h
          · rcases List.mem_append.mp h with h | h
            · exact hnd h
            · simp at h
        have hsub2 : substTok k v (TmplTok.ph nm) = TmplTok.ph nm := by
          show (if String.mk nm = k then TmplTok.lit v.data else TmplTok.ph nm) = _
          exact if_neg (fun he => hnm (by rw [← he]))
        have hxs : ('{' :: (nm ++ ['}'])) ++ flattenToks ts' =
            '{' :: (nm ++ '}' :: flattenToks ts') := by simp
        show jsRACore (phPattern k) v.data b
            ('$' :: ('{' :: (nm ++ '}' :: flattenToks ts'))) =
          flattenToks (List.map (substTok k v) (TmplTok.ph nm :: ts'))
        rw [jsRACore_miss _ _ _ _ _ hmiss, ← hxs,
          jsRACore_skip (phPattern k) v.data rfl ('{' :: (nm ++ ['}'])) hxsfree
            (b ++ ['$']) (flattenToks ts'),
          ih hWF' _, List.map_cons, hsub2]
        show '$' :: (('{' :: (nm ++ ['}'])) ++ flattenToks (List.map (substTok k v) ts')) =
          '$' :: '{' :: (nm ++ '}' :: flattenToks (List.map (substTok k v) ts'))
        simp

/-- The whole sequential substitution loop of `buildTicketUrl` on a
flattened well-formed template applies `substTok` per context entry. -/
theorem seqfold_flatten :
    ∀ (ctx : List (String × String)),
    (∀ kv ∈ ctx, kv.1.data ≠ [] ∧ '$' ∉ kv.1.data ∧ '}' ∉ kv.1.data ∧ '$' ∉ kv.2.data) →
    ∀ (ts : List TmplTok), (∀ t ∈ ts, tokWF t = true) →
    ctx.foldl (fun url kv => jsReplaceAll (phPattern kv.1) kv.2.data url) (flattenToks ts) =
      flattenToks (ctx.foldl (fun acc kv => acc.map (substTok kv.1 kv.2)) ts) := by
  intro ctx
  induction ctx with
  | nil => intro _ ts _; rfl
  | cons kv ctx' ih =>
    intro hctx ts hWF
    have hkv := hctx kv (List.mem_cons_self _ _)
    have hctx' : ∀ kv ∈ ctx',
        kv.1.data ≠ [] ∧ '$' ∉ kv.1.data ∧ '}' ∉ kv.1.data ∧ '$' ∉ kv.2.data :=
      fun kv hm => hctx kv (List.mem_cons_of_mem _ hm)
    show List.foldl _ (jsReplaceAll (phPattern kv.1) kv.2.data (flattenToks ts)) ctx' = _
    rw [show jsReplaceAll (phPattern kv.1) kv.2.data (flattenToks ts) =
        jsRACore (phPattern kv.1) kv.2.data [] (flattenToks ts) from rfl,
      jsRA_flatten kv.1 kv.2 ⟨hkv.1, hkv.2.1, hkv.2.2.1⟩ hkv.2.2.2 ts hWF []]
    exact ih hctx' _ (fun t ht => by
      obtain ⟨t0, ht0, rfl⟩ := List.mem_map.mp ht
      exact tokWF_substTok hkv.2.2.2 t0 (hWF t0 ht0))

theorem foldl_map_tokApply :
    ∀ (ctx : List (String × String)) (ts : List TmplTok),
    ctx.foldl (fun acc kv => acc.map (substTok kv.1 kv.2)) ts = ts.map (tokApply ctx) := by
  intro ctx
  induction ctx with
  | nil =>
    intro ts
    show ts = ts.map (fun t => t)
    rw [List.map_id']
  | cons kv ctx' ih =>
    intro ts
    show List.foldl _ (ts.map (substTok kv.1 kv.2)) ctx' = _
    rw [ih (ts.map (substTok kv.1 kv.2)), List.map_map]
    rfl

theorem tokApply_lit (cs : List Char) :
    ∀ (ctx : List (String × String)), tokApply ctx (TmplTok.lit cs) = TmplTok.lit cs := by
  intro ctx
  induction ctx with
  | nil => rfl
  | cons kv ctx' ih =>
    show tokApply ctx' (substTok kv.1 kv.2 (TmplTok.lit cs)) = _
    exact ih

theorem tokApply_ph (nm : List Char) :
    ∀ (ctx : List (String × String)),
    tokApply ctx (TmplTok.ph nm) =
      match objGet ctx (String.mk nm) with
      | some v => TmplTok.lit v.data
      | none => TmplTok.ph nm := by
  intro ctx
  induction ctx with
  | nil => rfl
  | cons kv ctx' ih =>
    show tokApply ctx' (substTok kv.1 kv.2 (TmplTok.ph nm)) = _
    by_cases h : String.mk nm = kv.1
    · rw [show substTok kv.1 kv.2 (TmplTok.ph nm) = TmplTok.lit kv.2.data by
        show (if String.mk nm = kv.1 then _ else _) = _
        rw [if_pos h], tokApply_lit]
      rw [show objGet (kv :: ctx') (String.mk nm) = some kv.2 by
        rw [objGet_cons, if_pos h.symm]]
    · rw [show substTok kv.1 kv.2 (TmplTok.ph nm) = TmplTok.ph nm by
        show (if String.mk nm = kv.1 then _ else _) = _
        rw [if_neg h], ih]
      rw [show objGet (kv :: ctx') (String.mk nm) = objGet ctx' (String.mk nm) by
        rw [objGet_cons, if_neg (fun hh => h hh.symm)]]

theorem flatten_tokApply_eq_render (ctx : List (String × String)) :
    ∀ (ts : List TmplTok),
    (∀ nm, TmplTok.ph nm ∈ ts → (objGet ctx (String.mk nm)).isSome = true) →
    flattenToks (ts.map (tokApply ctx)) = renderToks ctx ts := by
  intro ts
  induction ts with
  | nil => intro _; rfl
  | cons t ts' ih =>
    intro hb
    have hb' : ∀ nm, TmplTok.ph nm ∈ ts' → (objGet ctx (String.mk nm)).isSome = true :=
      fun nm hm => hb nm (List.mem_cons_of_mem _ hm)
    cases t with
    | lit cs =>
      show flattenToks (tokApply ctx (TmplTok.lit cs) :: ts'.map (tokApply ctx)) =
        cs ++ renderToks ctx ts'
      rw [tokApply_lit]
      show cs ++ flattenToks (ts'.map (tokApply ctx)) = cs ++ renderToks ctx ts'
      rw [ih hb']
    | ph nm =>
      have hsome := hb nm (List.mem_cons_self _ _)
      obtain ⟨v, hv⟩ := Option.isSome_iff_exists.mp hsome
      show flattenToks (tokApply ctx (TmplTok.ph nm) :: ts'.map (tokApply ctx)) =
        ((objGet ctx (String.mk nm)).getD "").data ++ renderToks ctx ts'
      rw [tokApply_ph, hv]
      show v.data ++ flattenToks (ts'.map (tokApply ctx)) = v.data ++ renderToks ctx ts'
      rw [ih hb']

theorem objGet_map_vstr :
    ∀ (ctx : List (String × String)) (k : String),
    objGet (ctx.map (fun kv => (kv.1, JsValue.vstr kv.2))) k =
      (objGet ctx k).map JsValue.vstr := by
  intro ctx k
  induction ctx with
  | nil => rfl
  | cons kv ctx' ih =>
    rw [List.map_cons, objGet_cons, objGet_cons]
    by_cases h : kv.1 = k
    · rw [if_pos h, if_pos h]
      rfl
    · rw [if_neg h, if_neg h, ih]

theorem hasDollarBrace_of_no_dollar :
    ∀ (l : List Char), '$' ∉ l → hasDollarBrace l = false := by
  intro l
  induction l with
  | nil => intro _; rfl
  | cons c rest ih =>
    intro h
    have hc : c ≠ '$' := fun hc => h (by rw [hc]; exact List.mem_cons_self _ _)
    have hrest : '$' ∉ rest := fun hm => h (List.mem_cons_of_mem _ hm)
    cases rest with
    | nil => rfl
    | cons d rest2 =>
      show ((c == '$' && d == '{') || hasDollarBrace (d :: rest2)) = false
      rw [ih hrest, show (c == '$') = false by simpa using hc]
      rfl

/-- The shared template engine on a flattened well-formed template: every
placeholder renders to its context value (the empty string when unbound),
every literal chunk is copied. -/
theorem process_flatten (ctx : List (String × String)) :
    ∀ (ts : List TmplTok), (∀ t ∈ ts, tokWF t = true) →
    processTemplateChars (ctx.map (fun kv => (kv.1, JsValue.vstr kv.2))) (flattenToks ts) =
      renderToks ctx ts := by
  intro ts
  induction ts with
  | nil => intro _; rfl
  | cons t ts' ih =>
    intro hWF
    have hWFt := hWF t (List.mem_cons_self _ _)
    have hWF' : ∀ t ∈ ts', tokWF t = true := fun t ht => hWF t (List.mem_cons_of_mem _ ht)
    cases t with
    | lit cs =>
      have hcs := tokWF_lit hWFt
      have hlast : cs.getLast? = some '$' → (flattenToks ts').head? ≠ some '{' := by
        intro hg
        exfalso
        exact hcs (List.mem_of_mem_getLast? hg)
      show processTemplateChars _ (cs ++ flattenToks ts') = cs ++ renderToks ctx ts'
      rw [process_append_clean _ _ cs (hasDollarBrace_of_no_dollar cs hcs) hlast, ih hWF']
    | ph nm =>
      obtain ⟨hne, hnd, hnb⟩ := tokWF_ph hWFt
      show processTemplateChars _ ('$' :: '{' :: (nm ++ '}' :: flattenToks ts')) =
        ((objGet ctx (String.mk nm)).getD "").data ++ renderToks ctx ts'
      rw [process_placeholder _ nm _ hne hnb, ih hWF', objGet_map_vstr]
      cases objGet ctx (String.mk nm) with
      | none => rfl
      | some v => rfl

/-! ## Helper lemmas for the detection loops -/

theorem detectProviderGo_skip (rmatch : RegexMatchFn) (remoteUrl : String) :
    ∀ (l1 rest : List (String × ProviderConfig)),
    (∀ q ∈ l1, rmatch q.2.remote_url_pattern remoteUrl = Except.error () ∨
      rmatch q.2.remote_url_pattern remoteUrl = Except.ok none) →
    DynamicUrlBuilder.detectProviderGo rmatch remoteUrl (l1 ++ rest) =
      DynamicUrlBuilder.detectProviderGo rmatch remoteUrl rest := by
  intro l1
  induction l1 with
  | nil => intro rest _; rfl
  | cons q l1' ih =>
    intro rest h
    obtain ⟨qid, qp⟩ := q
    have hstep : DynamicUrlBuilder.detectProviderGo rmatch remoteUrl
        ((qid, qp) :: (l1' ++ rest)) =
        match rmatch qp.remote_url_pattern remoteUrl with
        | Except.error _ => DynamicUrlBuilder.detectProviderGo rmatch remoteUrl (l1' ++ rest)
        | Except.ok none => DynamicUrlBuilder.detectProviderGo rmatch remoteUrl (l1' ++ rest)
        | Except.ok (some m) => some (qp, m) := rfl
    show DynamicUrlBuilder.detectProviderGo rmatch remoteUrl
      ((qid, qp) :: (l1' ++ rest)) = _
    rw [hstep]
    have hq := h (qid, qp) (List.mem_cons_self _ _)
    have htail : ∀ q ∈ l1', rmatch q.2.remote_url_pattern remoteUrl = Except.error () ∨
        rmatch q.2.remote_url_pattern remoteUrl = Except.ok none :=
      fun q hm => h q (List.mem_cons_of_mem _ hm)
    rcases hq with hq | hq <;> rw [hq] <;> exact ih rest htail

theorem detectProviderGo_none (rmatch : RegexMatchFn) (remoteUrl : String) :
    ∀ (l : List (String × ProviderConfig)),
    (∀ q ∈ l, rmatch q.2.remote_url_pattern remoteUrl = Except.error () ∨
      rmatch q.2.remote_url_pattern remoteUrl = Except.ok none) →
    DynamicUrlBuilder.detectProviderGo rmatch remoteUrl l = none := by
  intro l h
  have := detectProviderGo_skip rmatch remoteUrl l [] h
  rwa [List.append_nil] at this

/-! ## Concrete configurations used in counterexamples and witnesses

A small executable regex-match function: pattern `"p"` matches input `"u"`
with full match `"u"` and one capture group `"cap"`; pattern `"bad"` models
a regex whose compilation throws; everything else fails to match. -/

instance {ε α : Type} [DecidableEq ε] [DecidableEq α] : DecidableEq (Except ε α) :=
  fun a b =>
  match a, b with
  | Except.error e, Except.error e' =>
    if h : e = e' then isTrue (by rw [h]) else isFalse (fun hh => h (by injection hh))
  | Except.error _, Except.ok _ => isFalse (fun hh => Except.noConfusion hh)
  | Except.ok _, Except.error _ => isFalse (fun hh => Except.noConfusion hh)
  | Except.ok v, Except.ok v' =>
    if h : v = v' then isTrue (by rw [h]) else isFalse (fun hh => h (by injection hh))

def exMatch : RegexMatchFn := fun pattern input =>
  if pattern = "bad" then Except.error ()
  else if pattern = "p" ∧ input = "u" then Except.ok (some [some "u", some "cap"])
  else Except.ok none

/-- A provider whose capture name `branch` collides with the standard
variable `branch`. -/
def provC1 : ProviderConfig :=
  { name := "P", remote_url_pattern := "p",
    directory_url_template := "${branch}", captures := [("branch", 1)] }

def cfgC1 : ProvidersConfig := { provider := [("P", provC1)] }

/-- A provider whose file template reads `line_end`. -/
def provC10 : ProviderConfig :=
  { name := "P", remote_url_pattern := "p",
    file_url_template := "https://h/${line_end}" }

def cfgC10 : ProvidersConfig := { provider := [("P", provC10)] }

/-- A provider with a commit template but no commit-file template. -/
def provC4 : ProviderConfig :=
  { name := "P", remote_url_pattern := "p",
    commit_url_template := some "https://c/${commit_sha}" }

def cfgC4 : ProvidersConfig := { provider := [("P", provC4)] }

/-- A provider with file template and both line fragments. -/
def provC7 : ProviderConfig :=
  { name := "P", remote_url_pattern := "p", file_url_template := "F",
    line_fragment_single := "#L${line_start}",
    line_fragment_range := "#L${line_start}-L${line_end}" }

def cfgC7 : ProvidersConfig := { provider := [("P", provC7)] }

/-- A malformed provider ahead of a good one. -/
def provBad : ProviderConfig := { name := "Bad", remote_url_pattern := "bad" }

def cfgC9 : ProvidersConfig := { provider := [("Bad", provBad), ("P", provC7)] }

/-- Ticket providers: `A` with explicit priority 1000, `B` with none. -/
def cfgC5 : TicketProvidersConfig :=
  { ticket_provider := [("A", { name := "A", priority := some 1000 }),
                        ("B", { name := "B" })] }

/-- Ticket merge counterexample: base with provider `A` and explicit
check order `["A"]`, override adding provider `B`. -/
def baseT : TicketProvidersConfig :=
  { ticket_provider := [("A", { name := "A" })],
    settings := some { check_order := some ["A"] } }

def overT : TicketProvidersConfig := { ticket_provider := [("B", { name := "B" })] }

/-- Browser merge witness data: base with browser `a` and explicit order
`["a"]`, override adding browser `b`. -/
def baseB : BrowsersConfig :=
  { browser := [("a", { label := "a" })],
    settings := some { browser_order := some ["a"] } }

def overB : BrowsersConfig := { browser := [("b", { label := "b" })] }

/-- Ticket engine example: pattern `"t"` matches branch `"br"` with the
ticket id `T-1` in group 1. -/
def eT : RegexMatchFn := fun pattern input =>
  if pattern = "t" ∧ input = "br" then Except.ok (some [some "T-1", some "T-1"])
  else Except.ok none

/-- A ticket provider whose URL template holds a placeholder (`foo`) that
no context entry binds. -/
def provT : TicketProviderConfig :=
  { name := "T", ticket_pattern := "t",
    ticket_url_template := "https://t/${ticket_id}/${foo}" }

def cfgT : TicketProvidersConfig := { ticket_provider := [("tp", provT)] }

/-- A fully-bound ticket provider for the witness. -/
def provW : TicketProviderConfig :=
  { name := "W", ticket_pattern := "t",
    ticket_url_template := "https://t/${ticket_id}" }

def toksW : List TmplTok := [TmplTok.lit "https://t/".data, TmplTok.ph "ticket_id".data]

def mW : List (Option String) := [some "AB-12", some "AB-12"]

/-! ## Lookup lemmas for the ticket context and the file standard variables -/

theorem objGet_capfold_ne (m : List (Option String)) (nm : String) :
    ∀ (caps : List (String × Nat)), (∀ p ∈ caps, p.1 ≠ nm) →
    ∀ (ctx : List (String × String)),
    objGet (caps.foldl (fun ctx ni =>
      match matchGet m ni.2 with
      | some s => if s ≠ "" then objSet ctx ni.1 s else ctx
      | none => ctx) ctx) nm = objGet ctx nm := by
  intro caps
  induction caps with
  | nil => intro _ ctx; rfl
  | cons e rest ih =>
    intro h ctx
    have he : e.1 ≠ nm := h e (List.mem_cons_self _ _)
    have htail : ∀ p ∈ rest, p.1 ≠ nm := fun p hp => h p (List.mem_cons_of_mem _ hp)
    show objGet (List.foldl _
      (match matchGet m e.2 with
       | some s => if s ≠ "" then objSet ctx e.1 s else ctx
       | none => ctx) rest) nm = _
    cases hm : matchGet m e.2 with
    | none => exact ih htail ctx
    | some s =>
      show objGet (List.foldl _ (if s ≠ "" then objSet ctx e.1 s else ctx) rest) nm = _
      by_cases hs : s ≠ ""
      · rw [if_pos hs, ih htail _, objGet_objSet, if_neg (fun hh => he hh.symm)]
      · rw [if_neg hs]
        exact ih htail ctx

theorem ticketDerivedContext_ticket_id (tid : String) :
    objGet (TicketUrlBuilder.ticketDerivedContext tid) "ticket_id" = some tid := by
  unfold TicketUrlBuilder.ticketDerivedContext
  cases hp : TicketUrlBuilder.parseProjectTicket tid.data with
  | some p =>
    obtain ⟨l, d⟩ := p
    rw [objGet_objSet, if_neg (by decide), objGet_objSet, if_neg (by decide),
      objGet_cons, if_pos rfl]
  | none =>
    cases hf : TicketUrlBuilder.firstDigitRun tid.data with
    | some ds => rw [objGet_objSet, if_neg (by decide), objGet_cons, if_pos rfl]
    | none => rw [objGet_cons, if_pos rfl]

theorem objGet_append_single_ne (o1 : List (String × JsValue)) (k : String)
    (v : JsValue) (nm : String) (h : k ≠ nm) :
    objGet (o1 ++ [(k, v)]) nm = objGet o1 nm := by
  rw [objGet_append]
  cases hb : objGet o1 nm with
  | some w => rfl
  | none =>
    show objGet [(k, v)] nm = none
    rw [objGet_cons, if_neg h]
    rfl

theorem stdVarsFile_objGet_ne (branch path : String) (le : Option Int) (nm : String)
    (h : nm ≠ "line_end") :
    objGet (DynamicUrlBuilder.stdVarsFile branch path none le) nm =
      objGet (DynamicUrlBuilder.stdVarsFile branch path none none) nm := by
  unfold DynamicUrlBuilder.stdVarsFile
  cases le with
  | none => rfl
  | some n =>
    show objGet (([("branch", JsValue.vstr branch),
        ("relative_path", JsValue.vstr path)] ++ []) ++ [("line_end", JsValue.vnum n)]) nm =
      objGet (([("branch", JsValue.vstr branch),
        ("relative_path", JsValue.vstr path)] ++ []) ++ []) nm
    simp only [List.append_nil]
    exact objGet_append_single_ne _ _ _ _ (fun hh => h hh.symm)

/-! ## The claims -/

/-- C1, counterexample: the claim says a capture whose name collides with a
call-supplied standard variable must lose to the standard value, so
`buildDirectoryUrl` over the template `${branch}` would have to produce the
call-supplied branch `"main"`; the code produces the captured `"cap"`. -/
theorem c1_counterexample :
    DynamicUrlBuilder.buildDirectoryUrl exMatch cfgC1 "u" "main" "x" = some "cap" ∧
    ("cap" : String) ≠ "main" := by
  constructor
  · decide
  · decide

/-- C1 (amended): `buildTemplateContext` spreads the standard variables
first and assigns captures second, so for a capture name that collides with
a standard variable and whose group participated in the match, the context
binds the name to the **capture** value (with distinct capture names, as in
any TOML table); the standard value survives only when no capture of that
name participated. -/
theorem buildGitTemplateContext_capture_overrides (captures : List (Option String))
    (capMap : List (String × Nat)) (std : List (String × JsValue)) (nm : String)
    (i : Nat) (s : String) (hnd : (capMap.map Prod.fst).Nodup)
    (hmem : (nm, i) ∈ capMap) (hs : matchGet captures i = some s) :
    objGet (buildGitTemplateContext captures capMap std) nm = some (JsValue.vstr s) := by
  rw [buildGitTemplateContext_objGet]
  exact lastCaptureFrom_of_mem captures nm capMap _ i s hnd hmem hs

theorem buildGitTemplateContext_capture_overrides_witness :
    objGet (buildGitTemplateContext [some "u", some "cap"] [("branch", 1)]
      [("branch", JsValue.vstr "main")]) "branch" = some (JsValue.vstr "cap") :=
  buildGitTemplateContext_capture_overrides [some "u", some "cap"] [("branch", 1)]
    [("branch", JsValue.vstr "main")] "branch" 1 "cap"
    (by decide) (by decide) (by decide)

/-- C2: `processTemplate` replaces each `${name}` occurrence (a `$`, a `{`,
one-or-more non-`}` characters, a `}`) by the string form of the context
value — the empty string when the name is unbound or bound to `null` —
copies all text outside placeholders unchanged and never re-scans a
substituted value (the scan continues in the original template tail only);
a template in which the scan finds no placeholder is returned verbatim. -/
theorem processTemplate_spec (ctx : List (String × JsValue)) :
    (∀ (lit name rest : List Char), hasDollarBrace lit = false → name ≠ [] → '}' ∉ name →
      processTemplateChars ctx (lit ++ '$' :: '{' :: (name ++ '}' :: rest)) =
        lit ++ renderValue (objGet ctx (String.mk name)) ++ processTemplateChars ctx rest) ∧
    (∀ (t : List Char), extractVariablesChars t = [] → processTemplateChars ctx t = t) := by
  constructor
  · intro lit name rest hDB hname hnb
    rw [process_append_clean ctx ('$' :: '{' :: (name ++ '}' :: rest)) lit hDB
        (fun _ => by simp),
      process_placeholder ctx name rest hname hnb, List.append_assoc]
  · intro t hvars
    exact process_of_no_vars ctx t.length t (Nat.le_refl _) hvars

theorem processTemplate_spec_witness :
    processTemplateChars [("x", JsValue.vstr "X")] ("ab${x}cd".data) = "abXcd".data ∧
    processTemplateChars [("x", JsValue.vstr "X")] ("abcd".data) = "abcd".data := by
  constructor
  · have h := (processTemplate_spec [("x", JsValue.vstr "X")]).1
      "ab".data "x".data "cd".data (by decide) (by decide) (by decide)
    have e1 : "ab${x}cd".data = "ab".data ++ '$' :: '{' :: ("x".data ++ '}' :: "cd".data) := by
      decide
    rw [e1, h]
    decide
  · exact (processTemplate_spec [("x", JsValue.vstr "X")]).2 "abcd".data (by decide)

/-- C3, counterexample: merging a base with explicit check order `["A"]`
and an override introducing provider `B` yields check order `["B", "A"]` —
the new id is inserted at the **front**, not appended to the end. -/
theorem c3_counterexample :
    TicketProviderLoader.checkOrderOf (TicketProviderLoader.mergeConfigs baseT overT) =
      ["B", "A"] ∧
    (["B", "A"] : List String) ≠ ["A", "B"] := by
  constructor
  · decide
  · decide

/-- C3 (amended): when an explicit check order survives the merge, the
browser loader appends every missing id to the end (the kept order is a
prefix, the appended ids are new and in key order), but the **ticket**
loader first unshifts each newly-introduced override provider id to the
front and only the defensive pass appends remaining ids at the end. -/
theorem mergeConfigs_checkOrder_placement :
    (∀ (base override : TicketProvidersConfig) (currentOrder : List String),
      (TicketProviderLoader.mergedSettings base override).check_order = some currentOrder →
      ∃ pre post,
        TicketProviderLoader.checkOrderOf (TicketProviderLoader.mergeConfigs base override) =
          pre ++ currentOrder ++ post ∧
        (∀ x ∈ pre, x ∈ TicketProviderLoader.newProviderIds base override ∧
          x ∉ currentOrder) ∧
        (∀ x ∈ post, x ∉ currentOrder)) ∧
    (∀ (base override : BrowsersConfig) (bo : List String),
      (BrowserConfigLoader.mergedSettings base override).browser_order = some bo →
      ∃ post,
        BrowserConfigLoader.browserOrderOf (BrowserConfigLoader.mergeConfigs base override) =
          bo ++ post ∧
        post.Sublist ((BrowserConfigLoader.mergedBrowsers base override).map Prod.fst) ∧
        ∀ x ∈ post, x ∉ bo) := by
  constructor
  · intro base override currentOrder hco
    have horder : TicketProviderLoader.checkOrderOf
        (TicketProviderLoader.mergeConfigs base override) =
        TicketProviderLoader.finalCheckOrder base override := rfl
    have hfinal : TicketProviderLoader.finalCheckOrder base override =
        appendMissing
          (prependMissing currentOrder (TicketProviderLoader.newProviderIds base override))
          ((TicketProviderLoader.mergedProviders base override).map (fun p => p.1)) := by
      unfold TicketProviderLoader.finalCheckOrder
      rw [hco]
    rw [horder, hfinal]
    obtain ⟨post, hpost1, _, hpost3⟩ := appendMissing_decomp
      ((TicketProviderLoader.mergedProviders base override).map (fun p => p.1))
      (prependMissing currentOrder (TicketProviderLoader.newProviderIds base override))
    obtain ⟨pre, hpre1, hpre2⟩ := prependMissing_decomp
      (TicketProviderLoader.newProviderIds base override) currentOrder
    refine ⟨pre, post, ?_, hpre2, ?_⟩
    · rw [hpost1, hpre1, List.append_assoc]
    · intro x hx hmem
      refine hpost3 x hx ?_
      rw [hpre1]
      exact List.mem_append_right _ hmem
  · intro base override bo hbo
    have horder : BrowserConfigLoader.browserOrderOf
        (BrowserConfigLoader.mergeConfigs base override) =
        BrowserConfigLoader.finalBrowserOrder base override := rfl
    have hfinal : BrowserConfigLoader.finalBrowserOrder base override =
        appendMissing bo
          ((BrowserConfigLoader.mergedBrowsers base override).map (fun p => p.1)) := by
      unfold BrowserConfigLoader.finalBrowserOrder
      rw [hbo]
    rw [horder, hfinal]
    obtain ⟨post, h1, h2, h3⟩ := appendMissing_decomp
      ((BrowserConfigLoader.mergedBrowsers base override).map (fun p => p.1)) bo
    exact ⟨post, h1, h2, h3⟩

theorem mergeConfigs_checkOrder_placement_witness :
    ∃ pre post,
      TicketProviderLoader.checkOrderOf (TicketProviderLoader.mergeConfigs baseT overT) =
        pre ++ ["A"] ++ post ∧
      (∀ x ∈ pre, x ∈ TicketProviderLoader.newProviderIds baseT overT ∧
        x ∉ (["A"] : List String)) ∧
      (∀ x ∈ post, x ∉ (["A"] : List String)) :=
  mergeConfigs_checkOrder_placement.1 baseT overT ["A"] (by decide)

/-- C5, counterexample: provider `A` has explicit priority 1000 and `B` has
none; the claim puts `B` (no priority) after `A`, but the sentinel for a
missing priority is 999, so the code tries `B` first. -/
theorem c5_counterexample :
    (TicketUrlBuilder.getProvidersInOrder cfgC5).map Prod.fst = ["B", "A"] ∧
    cfgC5.ticket_provider.map Prod.fst = ["A", "B"] ∧
    (["B", "A"] : List String) ≠ ["A", "B"] := by
  refine ⟨?_, ?_, ?_⟩ <;> decide

/-- C5 (amended): with a non-empty explicit check order the providers are a
stable permutation sorted by the check-order comparator (listed ids in list
position, unlisted ids after every listed id); otherwise they are sorted by
ascending `priority ?? 999` — a missing priority is the sentinel 999, so it
sorts after every explicit priority below 999 but **before** any explicit
priority above 999. -/
theorem getTicketProvidersInOrder_spec (config : TicketProvidersConfig) :
    (∀ co, config.settings.bind (fun s => s.check_order) = some co → co.length > 0 →
      List.Perm (TicketUrlBuilder.getProvidersInOrder config) config.ticket_provider ∧
      List.Pairwise (customOrderLe co) (TicketUrlBuilder.getProvidersInOrder config)) ∧
    ((config.settings.bind (fun s => s.check_order) = none ∨
      config.settings.bind (fun s => s.check_order) = some []) →
      List.Perm (TicketUrlBuilder.getProvidersInOrder config) config.ticket_provider ∧
      List.Pairwise priorityLe (TicketUrlBuilder.getProvidersInOrder config)) := by
  constructor
  · intro co hco hlen
    have hres : TicketUrlBuilder.getProvidersInOrder config =
        List.insertionSort (customOrderLe co) config.ticket_provider := by
      unfold TicketUrlBuilder.getProvidersInOrder
      rw [hco]
      show (if co.length > 0 then
          List.insertionSort (customOrderLe co) config.ticket_provider
        else List.insertionSort priorityLe config.ticket_provider) = _
      rw [if_pos hlen]
    rw [hres]
    exact ⟨List.perm_insertionSort _ _, List.sorted_insertionSort _ _⟩
  · intro hco
    have hres : TicketUrlBuilder.getProvidersInOrder config =
        List.insertionSort priorityLe config.ticket_provider := by
      unfold TicketUrlBuilder.getProvidersInOrder
      rcases hco with hco | hco <;> rw [hco]
      show (if ([] : List String).length > 0 then
          List.insertionSort (customOrderLe []) config.ticket_provider
        else List.insertionSort priorityLe config.ticket_provider) = _
      rw [if_neg (by simp)]
    rw [hres]
    exact ⟨List.perm_insertionSort _ _, List.sorted_insertionSort _ _⟩

theorem getTicketProvidersInOrder_spec_witness :
    List.Perm (TicketUrlBuilder.getProvidersInOrder cfgC5) cfgC5.ticket_provider ∧
    List.Pairwise priorityLe (TicketUrlBuilder.getProvidersInOrder cfgC5) :=
  (getTicketProvidersInOrder_spec cfgC5).2 (Or.inl (by decide))

/-- C4: when the detected provider has no `commit_file_url_template`,
`buildCommitFileUrl` returns exactly `buildCommitUrl`, for every relative
path and line number (both are ignored); in particular the result is `null`
precisely when `commit_url_template` is also absent. -/
theorem buildCommitFileUrl_fallback (rmatch : RegexMatchFn) (sha256hex : String → String)
    (config : ProvidersConfig) (remoteUrl commitSha : String)
    (provider : ProviderConfig) (m : List (Option String))
    (hd : DynamicUrlBuilder.detectProvider rmatch config remoteUrl = some (provider, m))
    (hn : provider.commit_file_url_template = none) :
    (∀ (relativePath : String) (lineNumber : Option Int),
      DynamicUrlBuilder.buildCommitFileUrl rmatch sha256hex config remoteUrl commitSha
        relativePath lineNumber =
      DynamicUrlBuilder.buildCommitUrl rmatch config remoteUrl commitSha) ∧
    (∀ (relativePath : String) (lineNumber : Option Int),
      (DynamicUrlBuilder.buildCommitFileUrl rmatch sha256hex config remoteUrl commitSha
        relativePath lineNumber = none ↔ provider.commit_url_template = none)) := by
  have hmain : ∀ (relativePath : String) (lineNumber : Option Int),
      DynamicUrlBuilder.buildCommitFileUrl rmatch sha256hex config remoteUrl commitSha
        relativePath lineNumber =
      DynamicUrlBuilder.buildCommitUrl rmatch config remoteUrl commitSha := by
    intro relativePath lineNumber
    simp only [DynamicUrlBuilder.buildCommitFileUrl, hd, hn]
  refine ⟨hmain, ?_⟩
  intro relativePath lineNumber
  rw [hmain relativePath lineNumber]
  simp only [DynamicUrlBuilder.buildCommitUrl, hd]
  cases hc : provider.commit_url_template with
  | none => simp
  | some tmpl => simp

theorem buildCommitFileUrl_fallback_witness :
    DynamicUrlBuilder.buildCommitFileUrl exMatch (fun _ => "H") cfgC4 "u" "sha1"
      "f.ts" (some 5) =
    DynamicUrlBuilder.buildCommitUrl exMatch cfgC4 "u" "sha1" :=
  (buildCommitFileUrl_fallback exMatch (fun _ => "H") cfgC4 "u" "sha1" provC4
    [some "u", some "cap"] (by decide) (by decide)).1 "f.ts" (some 5)

/-- C7: with `lineStart` defined, `buildFileUrl` appends
`line_fragment_range` exactly when `lineEnd` is defined and differs from
`lineStart`, and `line_fragment_single` in every other case (`lineEnd`
undefined, or equal to `lineStart`); the chosen fragment is substituted
over the same context and appended by plain string concatenation. -/
theorem buildFileUrl_line_fragment (rmatch : RegexMatchFn) (config : ProvidersConfig)
    (remoteUrl branch relativePath : String) (ls : Int)
    (provider : ProviderConfig) (m : List (Option String))
    (hd : DynamicUrlBuilder.detectProvider rmatch config remoteUrl = some (provider, m)) :
    (DynamicUrlBuilder.buildFileUrl rmatch config remoteUrl branch relativePath
        (some ls) none =
      some (processTemplate provider.file_url_template
          (buildGitTemplateContext m provider.captures
            (DynamicUrlBuilder.stdVarsFile branch relativePath (some ls) none)) ++
        processTemplate provider.line_fragment_single
          (buildGitTemplateContext m provider.captures
            (DynamicUrlBuilder.stdVarsFile branch relativePath (some ls) none)))) ∧
    (∀ le : Int, le ≠ ls →
      DynamicUrlBuilder.buildFileUrl rmatch config remoteUrl branch relativePath
        (some ls) (some le) =
      some (processTemplate provider.file_url_template
          (buildGitTemplateContext m provider.captures
            (DynamicUrlBuilder.stdVarsFile branch relativePath (some ls) (some le))) ++
        processTemplate provider.line_fragment_range
          (buildGitTemplateContext m provider.captures
            (DynamicUrlBuilder.stdVarsFile branch relativePath (some ls) (some le))))) ∧
    (DynamicUrlBuilder.buildFileUrl rmatch config remoteUrl branch relativePath
        (some ls) (some ls) =
      some (processTemplate provider.file_url_template
          (buildGitTemplateContext m provider.captures
            (DynamicUrlBuilder.stdVarsFile branch relativePath (some ls) (some ls))) ++
        processTemplate provider.line_fragment_single
          (buildGitTemplateContext m provider.captures
            (DynamicUrlBuilder.stdVarsFile branch relativePath (some ls) (some ls))))) := by
  refine ⟨?_, ?_, ?_⟩
  · simp only [DynamicUrlBuilder.buildFileUrl, hd]
  · intro le hne
    simp only [DynamicUrlBuilder.buildFileUrl, hd, if_pos hne]
  · simp only [DynamicUrlBuilder.buildFileUrl, hd,
      if_neg (show ¬ (ls ≠ ls) from fun h => h rfl)]

theorem buildFileUrl_line_fragment_witness :
    DynamicUrlBuilder.buildFileUrl exMatch cfgC7 "u" "b" "f" (some 10) (some 20) =
      some "F#L10-L20" := by
  have h := (buildFileUrl_line_fragment exMatch cfgC7 "u" "b" "f" 10 provC7
    [some "u", some "cap"] (by decide)).2.1 20 (by decide)
  rw [h]
  decide

/-- C8: after any merge — by either loader — every id in the merged
provider/browser table is a member of the merged explicit order list. -/
theorem mergeConfigs_checkOrder_complete :
    (∀ (base override : TicketProvidersConfig) (id : String),
      id ∈ (TicketProviderLoader.mergeConfigs base override).ticket_provider.map
        (fun p => p.1) →
      id ∈ TicketProviderLoader.checkOrderOf (TicketProviderLoader.mergeConfigs base override)) ∧
    (∀ (base override : BrowsersConfig) (id : String),
      id ∈ (BrowserConfigLoader.mergeConfigs base override).browser.map (fun p => p.1) →
      id ∈ BrowserConfigLoader.browserOrderOf (BrowserConfigLoader.mergeConfigs base override)) := by
  constructor
  · intro base override id hid
    have hmem : id ∈ (TicketProviderLoader.mergedProviders base override).map
        (fun p => p.1) := hid
    show id ∈ TicketProviderLoader.finalCheckOrder base override
    unfold TicketProviderLoader.finalCheckOrder
    cases hs : (TicketProviderLoader.mergedSettings base override).check_order with
    | none => exact hmem
    | some currentOrder => exact mem_appendMissing id _ _ hmem
  · intro base override id hid
    have hmem : id ∈ (BrowserConfigLoader.mergedBrowsers base override).map
        (fun p => p.1) := hid
    show id ∈ BrowserConfigLoader.finalBrowserOrder base override
    unfold BrowserConfigLoader.finalBrowserOrder
    cases hs : (BrowserConfigLoader.mergedSettings base override).browser_order with
    | none => exact hmem
    | some bo => exact mem_appendMissing id _ _ hmem

theorem mergeConfigs_checkOrder_complete_witness :
    "B" ∈ TicketProviderLoader.checkOrderOf (TicketProviderLoader.mergeConfigs baseT overT) :=
  mergeConfigs_checkOrder_complete.1 baseT overT "B" (by decide)

/-- C9: `detectProvider` never propagates a pattern-compilation throw: a
provider whose pattern compilation fails (or does not match) is skipped and
iteration continues, so any later provider that compiles and matches is
returned; when every provider fails to compile or to match, the result is
`none` rather than an error. -/
theorem detectProvider_spec (rmatch : RegexMatchFn) (config : ProvidersConfig)
    (remoteUrl : String) :
    (∀ (l1 l2 : List (String × ProviderConfig)) (pid : String)
      (p : ProviderConfig) (m : List (Option String)),
      DynamicUrlBuilder.getProvidersInOrder config = l1 ++ (pid, p) :: l2 →
      (∀ q ∈ l1, rmatch q.2.remote_url_pattern remoteUrl = Except.error () ∨
        rmatch q.2.remote_url_pattern remoteUrl = Except.ok none) →
      rmatch p.remote_url_pattern remoteUrl = Except.ok (some m) →
      DynamicUrlBuilder.detectProvider rmatch config remoteUrl = some (p, m)) ∧
    ((∀ q ∈ DynamicUrlBuilder.getProvidersInOrder config,
      rmatch q.2.remote_url_pattern remoteUrl = Except.error () ∨
        rmatch q.2.remote_url_pattern remoteUrl = Except.ok none) →
      DynamicUrlBuilder.detectProvider rmatch config remoteUrl = none) := by
  constructor
  · intro l1 l2 pid p m hsplit hfail hmatch
    unfold DynamicUrlBuilder.detectProvider
    rw [hsplit, detectProviderGo_skip rmatch remoteUrl l1 _ hfail]
    have hstep : DynamicUrlBuilder.detectProviderGo rmatch remoteUrl ((pid, p) :: l2) =
        match rmatch p.remote_url_pattern remoteUrl with
        | Except.error _ => DynamicUrlBuilder.detectProviderGo rmatch remoteUrl l2
        | Except.ok none => DynamicUrlBuilder.detectProviderGo rmatch remoteUrl l2
        | Except.ok (some m) => some (p, m) := rfl
    rw [hstep, hmatch]
  · intro hall
    unfold DynamicUrlBuilder.detectProvider
    exact detectProviderGo_none rmatch remoteUrl _ hall

theorem detectProvider_spec_witness :
    DynamicUrlBuilder.detectProvider exMatch cfgC9 "u" =
      some (provC7, [some "u", some "cap"]) :=
  (detectProvider_spec exMatch cfgC9 "u").1 [("Bad", provBad)] [] "P" provC7
    [some "u", some "cap"] (by decide) (by decide) (by decide)

/-- C10, counterexample: with `lineStart` undefined the context still binds
`line_end`, so a provider whose `file_url_template` reads `${line_end}`
distinguishes `buildFileUrl(url, b, p, undefined, 7)` from the call with no
line arguments — the claim says they are always equal. -/
theorem c10_counterexample :
    DynamicUrlBuilder.buildFileUrl exMatch cfgC10 "u" "b" "f" none (some 7) =
      some "https://h/7" ∧
    DynamicUrlBuilder.buildFileUrl exMatch cfgC10 "u" "b" "f" none none =
      some "https://h/" ∧
    some ("https://h/7" : String) ≠ some "https://h/" := by
  refine ⟨?_, ?_, ?_⟩ <;> decide

/-- C10 (amended): with `lineStart` undefined no line fragment is appended
and the result is exactly the substituted `file_url_template` — over a
context that still binds `line_end` when a `lineEnd` argument was supplied;
the call equals `buildFileUrl` with no line arguments whenever the file
template does not use the `line_end` variable. -/
theorem buildFileUrl_lineStart_none (rmatch : RegexMatchFn) (config : ProvidersConfig)
    (remoteUrl branch relativePath : String) (lineEnd : Option Int)
    (provider : ProviderConfig) (m : List (Option String))
    (hd : DynamicUrlBuilder.detectProvider rmatch config remoteUrl = some (provider, m)) :
    (DynamicUrlBuilder.buildFileUrl rmatch config remoteUrl branch relativePath
        none lineEnd =
      some (processTemplate provider.file_url_template
        (buildGitTemplateContext m provider.captures
          (DynamicUrlBuilder.stdVarsFile branch relativePath none lineEnd)))) ∧
    (¬ "line_end" ∈ extractVariables provider.file_url_template →
      DynamicUrlBuilder.buildFileUrl rmatch config remoteUrl branch relativePath
        none lineEnd =
      DynamicUrlBuilder.buildFileUrl rmatch config remoteUrl branch relativePath
        none none) := by
  have hmain : ∀ le : Option Int,
      DynamicUrlBuilder.buildFileUrl rmatch config remoteUrl branch relativePath none le =
      some (processTemplate provider.file_url_template
        (buildGitTemplateContext m provider.captures
          (DynamicUrlBuilder.stdVarsFile branch relativePath none le))) := by
    intro le
    simp only [DynamicUrlBuilder.buildFileUrl, hd]
  refine ⟨hmain lineEnd, ?_⟩
  intro hno
  rw [hmain lineEnd, hmain none]
  have hchars : processTemplateChars
      (buildGitTemplateContext m provider.captures
        (DynamicUrlBuilder.stdVarsFile branch relativePath none lineEnd))
      provider.file_url_template.data =
      processTemplateChars
      (buildGitTemplateContext m provider.captures
        (DynamicUrlBuilder.stdVarsFile branch relativePath none none))
      provider.file_url_template.data := by
    refine processTemplateChars_congr _ _ provider.file_url_template.data.length
      provider.file_url_template.data (Nat.le_refl _) ?_
    intro nm hnm
    have hne : String.mk nm ≠ "line_end" := by
      intro he
      refine hno ?_
      rw [← he]
      exact List.mem_map_of_mem String.mk hnm
    rw [buildGitTemplateContext_objGet, buildGitTemplateContext_objGet,
      stdVarsFile_objGet_ne branch relativePath lineEnd (String.mk nm) hne]
  show some (String.mk _) = some (String.mk _)
  rw [hchars]

theorem buildFileUrl_lineStart_none_witness :
    DynamicUrlBuilder.buildFileUrl exMatch cfgC7 "u" "b" "f" none (some 7) =
      DynamicUrlBuilder.buildFileUrl exMatch cfgC7 "u" "b" "f" none none :=
  (buildFileUrl_lineStart_none exMatch cfgC7 "u" "b" "f" (some 7) provC7
    [some "u", some "cap"] (by decide)).2 (by decide)

/-- C6, counterexample: the ticket engine substitutes by sequentially
replacing only the **bound** context keys, so the unbound placeholder
`${foo}` survives literally in the produced URL, while the shared template
engine (`processTemplate`) renders it as the empty string — the two results
differ, and the produced URL is not `substitute(template, context)`. -/
theorem c6_counterexample :
    (TicketUrlBuilder.extractTicket eT cfgT "br").map TicketMatch.url =
      some "https://t/T-1/${foo}" ∧
    processTemplate "https://t/${ticket_id}/${foo}"
      ((TicketUrlBuilder.ticketContext provT "T-1" [some "T-1", some "T-1"]).map
        (fun kv => (kv.1, JsValue.vstr kv.2))) = "https://t/T-1/" ∧
    ("https://t/T-1/${foo}" : String) ≠ "https://t/T-1/" := by
  refine ⟨?_, ?_, ?_⟩ <;> decide

/-- C6 (amended): the ticket URL equals `substitute(ticket_url_template,
context)` computed by the shared template engine **provided** every
placeholder of the template is bound in the derived context and names and
values are well-formed (non-empty `$`- and `}`-free keys, `$`-free values);
in general an unbound placeholder stays literal instead of rendering empty.
The context binds `ticket_id` to the matched ticket id whenever no
provider-declared capture reuses that name. -/
theorem buildTicketUrl_eq_processTemplate (provider : TicketProviderConfig)
    (ticketId : String) (m : List (Option String)) (ts : List TmplTok)
    (htmpl : provider.ticket_url_template.data = flattenToks ts)
    (hWF : ∀ t ∈ ts, tokWF t = true)
    (hctx : ∀ kv ∈ TicketUrlBuilder.ticketContext provider ticketId m,
      kv.1.data ≠ [] ∧ '$' ∉ kv.1.data ∧ '}' ∉ kv.1.data ∧ '$' ∉ kv.2.data)
    (hbound : ∀ nm, TmplTok.ph nm ∈ ts →
      (objGet (TicketUrlBuilder.ticketContext provider ticketId m)
        (String.mk nm)).isSome = true) :
    TicketUrlBuilder.buildTicketUrl provider ticketId m =
      processTemplate provider.ticket_url_template
        ((TicketUrlBuilder.ticketContext provider ticketId m).map
          (fun kv => (kv.1, JsValue.vstr kv.2))) ∧
    ((∀ p ∈ provider.captures.getD [], p.1 ≠ "ticket_id") →
      objGet (TicketUrlBuilder.ticketContext provider ticketId m) "ticket_id" =
        some ticketId) := by
  constructor
  · show String.mk ((TicketUrlBuilder.ticketContext provider ticketId m).foldl
        (fun url kv => jsReplaceAll (phPattern kv.1) kv.2.data url)
        provider.ticket_url_template.data) =
      String.mk (processTemplateChars
        ((TicketUrlBuilder.ticketContext provider ticketId m).map
          (fun kv => (kv.1, JsValue.vstr kv.2))) provider.ticket_url_template.data)
    rw [htmpl, seqfold_flatten _ hctx ts hWF, foldl_map_tokApply,
      flatten_tokApply_eq_render _ ts hbound, process_flatten _ ts hWF]
  · intro hcap
    show objGet (TicketUrlBuilder.ticketContext provider ticketId m) "ticket_id" = _
    unfold TicketUrlBuilder.ticketContext
    cases hc : provider.captures with
    | none => exact ticketDerivedContext_ticket_id ticketId
    | some caps =>
      rw [objGet_capfold_ne m "ticket_id" caps
        (fun p hp => hcap p (by rw [hc]; exact hp))]
      exact ticketDerivedContext_ticket_id ticketId

theorem buildTicketUrl_eq_processTemplate_witness :
    TicketUrlBuilder.buildTicketUrl provW "AB-12" mW =
      processTemplate provW.ticket_url_template
        ((TicketUrlBuilder.ticketContext provW "AB-12" mW).map
          (fun kv => (kv.1, JsValue.vstr kv.2))) ∧
    ((∀ p ∈ provW.captures.getD [], p.1 ≠ "ticket_id") →
      objGet (TicketUrlBuilder.ticketContext provW "AB-12" mW) "ticket_id" =
        some "AB-12") :=
  buildTicketUrl_eq_processTemplate provW "AB-12" mW toksW
    (by decide) (by decide) (by decide)
    (by
      intro nm hnm
      simp only [toksW, List.mem_cons, List.not_mem_nil, or_false] at hnm
      cases hnm with
      | inl h => exact TmplTok.noConfusion h
      | inr h =>
        injection h with h
        subst h
        decide)

end OIB
